import Mathlib

/-!
Verification of the hyb package (an in-memory HYB autocompletion index,
builder in builder.go, query engine in hyb.go, result views in results.go)
against its natural-language specification.

Modelling conventions, used throughout:

* Go strings are byte strings; they are embedded as `List Nat` (each entry a
  byte value).  Go's `<`, `<=`, `strings.HasPrefix` are byte-wise and are
  embedded by `strLtb`, `strLeb`, `hasPrefixB`.
* Go `int` is embedded as `Int`, Go `uint32` values as `Nat` together with an
  explicit `% 2^32` (`u32ofInt`) wherever Go performs a conversion whose
  wrap-around matters.
* `sort.Sort` is an arbitrary comparison sort and is NOT stable.  It is
  modelled relationally by `GoSortOutcome less input output` (the output is a
  permutation of the input that is non-decreasing for `less`).  Executable
  pipelines instantiate it with the insertion sort `isort`, which produces one
  valid outcome; whenever a concrete evaluation depends on the sort result,
  the comparator is antisymmetric on the data at hand, so every valid outcome
  (in particular Go's) coincides with `isort`'s.
* `container/heap` (Init / Push / Pop with the package's up / down sift
  routines) is embedded verbatim over `List` in the `GoHeap` section; all
  three heaps of the source (mergeHeap, postHeap, compHeap) compare by a
  single integer key, so the embedding is parameterized by `key : α → Int`.
* The external codec `github.com/robskie/bp128` is not part of this
  repository; per its contract `Unpack(Pack(x)) = x` and
  `Unpack(DeltaPack(x)) = x`, a packed array is modelled by the array itself.
* Go loops are embedded as fuel-based structural recursions; each call site
  passes fuel that provably dominates the loop's termination measure, so the
  embedded function and the Go loop compute the same result.
* A Go runtime panic (out-of-range index or slice bound, nil dereference) is
  modelled by `Option`/`none`; functions on code paths that cannot panic are
  embedded as total functions.
-/

namespace Hyb

/-! ## Byte strings and their ordering -/

/-- A Go string, as its list of bytes. -/
abbrev GoStr := List Nat

/-- Byte-wise lexicographic strict order on byte strings; this is exactly
Go's `<` on strings. -/
def strLtb : GoStr → GoStr → Bool
  | [], [] => false
  | [], _ :: _ => true
  | _ :: _, [] => false
  | a :: as, b :: bs => if a < b then true else if b < a then false else strLtb as bs

/-- Byte-wise `<=` on byte strings (Go's `<=`). -/
def strLeb (a b : GoStr) : Bool := ! strLtb b a

/-- Go's `strings.HasPrefix s p`: `p` is a byte prefix of `s`. -/
def hasPrefixB : GoStr → GoStr → Bool
  | _, [] => true
  | [], _ :: _ => false
  | a :: as, b :: bs => if a = b then hasPrefixB as bs else false

theorem strLtb_irrefl (a : GoStr) : strLtb a a = false := by
  induction a with
  | nil => rfl
  | cons x xs ih => simp [strLtb, ih]

theorem strLtb_asymm {a b : GoStr} (h : strLtb a b = true) : strLtb b a = false := by
  induction a generalizing b with
  | nil =>
    cases b with
    | nil => simp [strLtb] at h
    | cons y ys => simp [strLtb]
  | cons x xs ih =>
    cases b with
    | nil => simp [strLtb] at h
    | cons y ys =>
      by_cases hxy : x < y
      · simp [strLtb, hxy, Nat.lt_asymm hxy, Nat.ne_of_gt hxy]
      · by_cases hyx : y < x
        · simp [strLtb, hxy, hyx] at h
        · have hxy' : x = y := Nat.le_antisymm (Nat.le_of_not_lt hyx) (Nat.le_of_not_lt hxy)
          subst hxy'
          simp [strLtb, Nat.lt_irrefl] at h ⊢
          exact ih h

theorem strLtb_trans {a b c : GoStr} (hab : strLtb a b = true) (hbc : strLtb b c = true) :
    strLtb a c = true := by
  induction a generalizing b c with
  | nil =>
    cases c with
    | nil =>
      cases b with
      | nil => exact hab
      | cons y ys => simp [strLtb] at hbc
    | cons z zs => simp [strLtb]
  | cons x xs ih =>
    cases b with
    | nil => simp [strLtb] at hab
    | cons y ys =>
      cases c with
      | nil => simp [strLtb] at hbc
      | cons z zs =>
        by_cases hxy : x < y
        · by_cases hyz : y < z
          · simp [strLtb, Nat.lt_trans hxy hyz]
          · by_cases hzy : z < y
            · simp [strLtb, hyz, hzy] at hbc
            · have : y = z := Nat.le_antisymm (Nat.le_of_not_lt hzy) (Nat.le_of_not_lt hyz)
              subst this
              simp [strLtb, hxy]
        · by_cases hyx : y < x
          · simp [strLtb, hxy, hyx] at hab
          · have : x = y := Nat.le_antisymm (Nat.le_of_not_lt hyx) (Nat.le_of_not_lt hxy)
            subst this
            simp [strLtb, Nat.lt_irrefl] at hab
            by_cases hyz : x < z
            · simp [strLtb, hyz]
            · by_cases hzy : z < x
              · simp [strLtb, hyz, hzy] at hbc
              · have : x = z := Nat.le_antisymm (Nat.le_of_not_lt hzy) (Nat.le_of_not_lt hyz)
                subst this
                simp [strLtb, Nat.lt_irrefl] at hbc ⊢
                exact ih hab hbc

theorem strLtb_total (a b : GoStr) : strLtb a b = true ∨ a = b ∨ strLtb b a = true := by
  induction a generalizing b with
  | nil =>
    cases b with
    | nil => exact Or.inr (Or.inl rfl)
    | cons y ys => exact Or.inl rfl
  | cons x xs ih =>
    cases b with
    | nil => exact Or.inr (Or.inr rfl)
    | cons y ys =>
      by_cases hxy : x < y
      · exact Or.inl (by simp [strLtb, hxy])
      · by_cases hyx : y < x
        · exact Or.inr (Or.inr (by simp [strLtb, hyx, Nat.lt_asymm hyx]))
        · have : x = y := Nat.le_antisymm (Nat.le_of_not_lt hyx) (Nat.le_of_not_lt hxy)
          subst this
          rcases ih ys with h | h | h
          · exact Or.inl (by simp [strLtb, Nat.lt_irrefl, h])
          · exact Or.inr (Or.inl (by rw [h]))
          · exact Or.inr (Or.inr (by simp [strLtb, Nat.lt_irrefl, h]))

theorem strLeb_total (a b : GoStr) : strLeb a b = true ∨ strLeb b a = true := by
  unfold strLeb
  rcases strLtb_total a b with h | h | h
  · exact Or.inl (by simp [strLtb_asymm h])
  · exact Or.inl (by simp [h, strLtb_irrefl])
  · exact Or.inr (by simp [strLtb_asymm h])

theorem strLeb_trans {a b c : GoStr} (hab : strLeb a b = true) (hbc : strLeb b c = true) :
    strLeb a c = true := by
  unfold strLeb at *
  by_cases h : strLtb c a = true
  · rcases strLtb_total a b with h1 | h1 | h1
    · have := strLtb_trans h h1
      simp [this] at hbc
    · subst h1
      simp [h] at hbc
    · simp [h1] at hab
  · simp [h]

theorem strLeb_antisymm {a b : GoStr} (hab : strLeb a b = true) (hba : strLeb b a = true) :
    a = b := by
  unfold strLeb at *
  rcases strLtb_total a b with h | h | h
  · simp [h] at hba
  · exact h
  · simp [h] at hab

/-! ## Insertion sort: one valid outcome of a Go comparison sort -/

/-- Insert `x` into `l` before the first element `y` with `le x y`. -/
def insertLe (le : α → α → Bool) (x : α) : List α → List α
  | [] => [x]
  | y :: ys => if le x y then x :: y :: ys else y :: insertLe le x ys

/-- Insertion sort by a boolean `le`. -/
def isort (le : α → α → Bool) : List α → List α
  | [] => []
  | x :: xs => insertLe le x (isort le xs)

theorem insertLe_perm (le : α → α → Bool) (x : α) (l : List α) :
    (insertLe le x l).Perm (x :: l) := by
  induction l with
  | nil => exact List.Perm.refl _
  | cons y ys ih =>
    by_cases h : le x y
    · simp [insertLe, h]
    · simp only [insertLe, h, if_neg]
      exact ((ih.cons y).trans (List.Perm.swap x y ys)).symm.symm

theorem isort_perm (le : α → α → Bool) (l : List α) : (isort le l).Perm l := by
  induction l with
  | nil => exact List.Perm.refl _
  | cons x xs ih => exact (insertLe_perm le x (isort le xs)).trans (ih.cons x)

theorem insertLe_pairwise (le : α → α → Bool)
    (htot : ∀ a b, le a b = true ∨ le b a = true)
    (htrans : ∀ a b c, le a b = true → le b c = true → le a c = true)
    (x : α) (l : List α)
    (hl : l.Pairwise (fun a b => le a b = true)) :
    (insertLe le x l).Pairwise (fun a b => le a b = true) := by
  induction l with
  | nil => simp [insertLe]
  | cons y ys ih =>
    rcases List.pairwise_cons.mp hl with ⟨hy, hys⟩
    by_cases h : le x y
    · simp only [insertLe, h, if_pos]
      refine List.pairwise_cons.mpr ⟨?_, hl⟩
      intro z hz
      rcases List.mem_cons.mp hz with hz | hz
      · subst hz; exact h
      · exact htrans x y z h (hy z hz)
    · simp only [insertLe, h, if_neg]
      refine List.pairwise_cons.mpr ⟨?_, ih hys⟩
      intro z hz
      have hz' := (insertLe_perm le x ys).mem_iff.mp hz
      rcases List.mem_cons.mp hz' with hz' | hz'
      · subst hz'
        rcases htot y z with hh | hh
        · exact hh
        · exact absurd hh (by simpa using h)
      · exact hy z hz'

theorem isort_pairwise (le : α → α → Bool)
    (htot : ∀ a b, le a b = true ∨ le b a = true)
    (htrans : ∀ a b c, le a b = true → le b c = true → le a c = true)
    (l : List α) :
    (isort le l).Pairwise (fun a b => le a b = true) := by
  induction l with
  | nil => simp [isort]
  | cons x xs ih => exact insertLe_pairwise le htot htrans x (isort le xs) ih

/-! ## The contract of Go's `sort.Sort`

`sort.Sort(data)` rearranges `data` into an order that is non-decreasing for
`data.Less`; it is documented NOT to be stable.  Its behaviour is therefore
exactly captured by the relation below: the output is some permutation of the
input in which no later element is `Less` than an earlier one. -/

/-- The output ordering guaranteed by Go's `sort.Sort` for a `Less` function. -/
def GoSorted (less : α → α → Bool) (l : List α) : Prop :=
  l.Pairwise (fun a b => less b a = false)

/-- `GoSortOutcome less input output`: `output` is a possible result of
running Go's (unstable) `sort.Sort` with comparator `less` on `input`. -/
def GoSortOutcome (less : α → α → Bool) (input output : List α) : Prop :=
  output.Perm input ∧ GoSorted less output

instance {α : Type} [DecidableEq α] (less : α → α → Bool) (i o : List α) :
    Decidable (GoSortOutcome less i o) := by
  unfold GoSortOutcome GoSorted
  infer_instance

/-- The executable stand-in for `sort.Sort`: insertion sort with the
non-strict order derived from `less`.  It realizes one valid outcome. -/
def goSortExe (less : α → α → Bool) (l : List α) : List α :=
  isort (fun a b => ! less b a) l

theorem goSortExe_outcome (less : α → α → Bool)
    (hasym : ∀ a b, less a b = true → less b a = false)
    (htrans : ∀ a b c, less b a = false → less c b = false → less c a = false)
    (l : List α) : GoSortOutcome less l (goSortExe less l) := by
  constructor
  · exact isort_perm _ l
  · have h := isort_pairwise (fun a b => ! less b a)
      (by
        intro a b
        by_cases h : less b a = true
        · exact Or.inr (by simp [hasym _ _ h])
        · exact Or.inl (by simp [Bool.eq_false_iff.mpr h]))
      (by
        intro a b c hab hbc
        simp only [Bool.not_eq_true'] at hab hbc ⊢
        exact htrans _ _ _ hab hbc) l
    unfold GoSorted
    refine h.imp ?_
    intro a b hab
    simpa using hab

/-! ## Builder data model (builder.go)

`doc`, `byRank`, `byID`, `Builder`, `Add`, `Delete`, and the dedup /
posting-emission stage of `Build`. -/

/-- builder.go `doc`: one appended record. -/
structure GoDoc where
  id : Int
  words : List GoStr
  rank : Int
  count : Nat
  deleted : Bool
deriving DecidableEq

/-- builder.go `byRank.Less`. -/
def docLessRank (d e : GoDoc) : Bool := d.rank < e.rank

/-- builder.go `byID.Less`: ascending id, then descending insertion counter. -/
def docLessID (d e : GoDoc) : Bool :=
  if d.id ≠ e.id then d.id < e.id else d.count > e.count

/-- builder.go `Builder`. -/
structure Builder where
  docs : List GoDoc
  count : Nat
deriving DecidableEq

/-- builder.go `NewBuilder`. -/
def NewBuilder : Builder := ⟨[], 0⟩

/-- builder.go `Add`.  Go's `sort.Strings(keywords)` sorts the caller's slice
in place; the pair returned here is (new builder state, the contents of the
caller's keyword slice after the call).  `sort.Strings` compares equal
elements only when they are identical strings, so every valid outcome of the
unstable sort equals the insertion sort used here. -/
def Add (b : Builder) (id : Int) (keywords : List GoStr) (rank : Int) :
    Builder × List GoStr :=
  let sorted := isort strLeb keywords
  (⟨b.docs ++ [⟨id, sorted, rank, b.count, false⟩], b.count + 1⟩, sorted)

/-- builder.go `Delete`: appends a tombstone with rank -1. -/
def Delete (b : Builder) (id : Int) : Builder :=
  ⟨b.docs ++ [⟨id, [], -1, b.count, true⟩], b.count + 1⟩

/-- A builder history: the sequence of `Add`/`Delete` calls made by the
caller before `Build`. -/
inductive BOp where
  | add (id : Int) (keywords : List GoStr) (rank : Int)
  | delete (id : Int)
deriving DecidableEq

/-- The document id an operation refers to. -/
def BOp.opId : BOp → Int
  | .add i _ _ => i
  | .delete i => i

def applyOp (b : Builder) : BOp → Builder
  | .add i k r => (Add b i k r).1
  | .delete i => Delete b i

def applyOps (b : Builder) (ops : List BOp) : Builder := ops.foldl applyOp b

/-- The records a list of operations appends when the insertion counter
starts at `n` (each record's `count` is its position in the history). -/
def opsDocs (n : Nat) : List BOp → List GoDoc
  | [] => []
  | .add i k r :: rest => ⟨i, isort strLeb k, r, n, false⟩ :: opsDocs (n + 1) rest
  | .delete i :: rest => ⟨i, [], -1, n, true⟩ :: opsDocs (n + 1) rest

theorem applyOps_eq (ds : List GoDoc) (n : Nat) (ops : List BOp) :
    applyOps ⟨ds, n⟩ ops = ⟨ds ++ opsDocs n ops, n + ops.length⟩ := by
  induction ops generalizing ds n with
  | nil => simp [applyOps, opsDocs]
  | cons op rest ih =>
    cases op with
    | add i k r =>
      show applyOps ⟨ds ++ [_], n + 1⟩ rest = _
      rw [ih]
      simp [opsDocs, List.append_assoc]
      omega
    | delete i =>
      show applyOps ⟨ds ++ [_], n + 1⟩ rest = _
      rw [ih]
      simp [opsDocs, List.append_assoc]
      omega

/-- Rank normalization (`Build`, step after the rank sort): overwrite each
record's rank with its position.  `assignRanksFrom n` numbers from `n`. -/
def assignRanksFrom (n : Nat) : List GoDoc → List GoDoc
  | [] => []
  | d :: rest => { d with rank := (n : Int) } :: assignRanksFrom (n + 1) rest

def assignRanks (l : List GoDoc) : List GoDoc := assignRanksFrom 0 l

/-- builder.go `bposting` (the rank is carried along; the word is the
keyword string itself, Go stores a pointer to it). -/
structure BPosting where
  id : Int
  word : GoStr
  rank : Int
deriving DecidableEq

/-- The dedup walk of `Build` (lines 191-215 of builder.go): `pid` starts at
-1; a record is kept iff its id differs from the previous record's id and it
is not deleted; `pid` is updated to the current id in every iteration. -/
def dedupLoop : Int → List GoDoc → List GoDoc
  | _, [] => []
  | pid, d :: rest =>
    if pid ≠ d.id ∧ d.deleted = false then d :: dedupLoop d.id rest
    else dedupLoop d.id rest

/-- Postings emitted for one surviving record: one per keyword occurrence,
in the record's keyword order. -/
def docPostings (d : GoDoc) : List BPosting :=
  d.words.map (fun w => ⟨d.id, w, d.rank⟩)

/-- The builder postings produced by `Build` from the byID-sorted record
list: survivors of the dedup walk, in order, each expanded to its keyword
postings. -/
def buildPostings (l : List GoDoc) : List BPosting :=
  (dedupLoop (-1) l).flatMap docPostings

/-- The fields of a record that rank normalization does not touch. -/
structure DKey where
  id : Int
  words : List GoStr
  count : Nat
  deleted : Bool
deriving DecidableEq

/-- Projection of a record to its normalization-invariant fields. -/
def projD (d : GoDoc) : DKey := ⟨d.id, d.words, d.count, d.deleted⟩

theorem assignRanksFrom_map_projD (n : Nat) (l : List GoDoc) :
    (assignRanksFrom n l).map projD = l.map projD := by
  induction l generalizing n with
  | nil => rfl
  | cons d rest ih => simp [assignRanksFrom, ih, projD]

theorem assignRanksFrom_map_rank (n : Nat) (l : List GoDoc) :
    (assignRanksFrom n l).map (fun d => d.rank)
      = (List.range' n l.length).map (fun k => (k : Int)) := by
  induction l generalizing n with
  | nil => rfl
  | cons d rest ih => simp [assignRanksFrom, ih, List.range']

/-! ## Claim C9: Add sorts the caller's keyword slice in place -/

/-- C9 (confirmed): for every call `Add(id, keywords, rank)`, the
caller-supplied keywords slice afterwards holds a byte-wise sorted
permutation of its previous contents, and the only other state change is
appending the one new record (with this sorted slice, the current insertion
counter, deleted=false) to the builder and incrementing the counter. -/
theorem c9_add_sorts_caller_slice (b : Builder) (id : Int)
    (keywords : List GoStr) (rank : Int) :
    ((Add b id keywords rank).2).Perm keywords ∧
    ((Add b id keywords rank).2).Pairwise (fun u v => strLeb u v = true) ∧
    (Add b id keywords rank).1 =
      ⟨b.docs ++ [⟨id, (Add b id keywords rank).2, rank, b.count, false⟩],
        b.count + 1⟩ := by
  refine ⟨isort_perm _ _, ?_, rfl⟩
  exact isort_pairwise strLeb strLeb_total (fun u v w => strLeb_trans) keywords

/-! ## Claim C8: rank normalization and (non-)stability of the rank sort -/

/-- C8 counterexample: two records appended with equal caller rank 5 (counts
0 and 1).  The reversed order is a valid outcome of Go's unstable
`sort.Sort` with `byRank.Less`, and under it the record appended later
(count 1) receives normalized rank 0 while the earlier record (count 0)
receives rank 1 — refuting the claimed stability. -/
theorem c8_counterexample :
    GoSortOutcome docLessRank
      [⟨0, [], 5, 0, false⟩, ⟨1, [], 5, 1, false⟩]
      [⟨1, [], 5, 1, false⟩, ⟨0, [], 5, 0, false⟩] ∧
    (assignRanks [⟨1, [], 5, 1, false⟩, ⟨0, [], 5, 0, false⟩]).map
      (fun d => (d.count, d.rank)) = [(1, 0), (0, 1)] := by
  constructor
  · decide
  · rfl

/-- C8 (corrected): the first step of `Build` sorts the records into
ascending caller-supplied rank order — the relative order of records with
equal rank is unspecified, since `sort.Sort` is not stable — and then
overwrites each record's rank with its position, i.e. the normalized ranks
are exactly 0, 1, ..., N-1 in list order, caller-rank order is preserved,
and no field other than the rank changes. -/
theorem c8_rank_normalization (docs l : List GoDoc)
    (h : GoSortOutcome docLessRank docs l) :
    (assignRanks l).map (fun d => d.rank)
        = (List.range docs.length).map (fun n => (n : Int)) ∧
    (l.map (fun d => d.rank)).Pairwise (fun a b => a ≤ b) ∧
    ((assignRanks l).map projD).Perm (docs.map projD) := by
  obtain ⟨hperm, hsort⟩ := h
  refine ⟨?_, ?_, ?_⟩
  · rw [assignRanks, assignRanksFrom_map_rank, hperm.length_eq,
      List.range_eq_range']
  · refine List.pairwise_map.mpr (hsort.imp ?_)
    intro a b hab
    unfold docLessRank at hab
    simpa using hab
  · rw [assignRanks, assignRanksFrom_map_projD]
    exact hperm.map projD

/-- C8 witness: the amended statement applied to a concrete two-record
input and a concrete valid sort outcome. -/
theorem c8_rank_normalization_witness :
    GoSortOutcome docLessRank
      [⟨3, [], 9, 0, false⟩, ⟨4, [], 2, 1, false⟩]
      [⟨4, [], 2, 1, false⟩, ⟨3, [], 9, 0, false⟩] ∧
    (assignRanks [⟨4, [], 2, 1, false⟩, ⟨3, [], 9, 0, false⟩]).map
        (fun d => d.rank) = [0, 1] := by
  have hout : GoSortOutcome docLessRank
      [⟨3, [], 9, 0, false⟩, ⟨4, [], 2, 1, false⟩]
      [⟨4, [], 2, 1, false⟩, ⟨3, [], 9, 0, false⟩] := by decide
  refine ⟨hout, ?_⟩
  have h := (c8_rank_normalization _ _ hout).1
  simpa using h

/-! ## Claim C1: last-writer-wins at Build

The dedup walk of `Build` keeps, for each id, the surviving record — except
for id -1, which collides with the initial value of the walk's `pid` cursor,
so a record with id -1 that opens the sorted list is never kept. -/

theorem docLessID_false_le {d e : GoDoc} (h : docLessID e d = false) :
    d.id ≤ e.id := by
  unfold docLessID at h
  by_cases hid : e.id = d.id
  · omega
  · simp [hid] at h
    omega

theorem docLessID_false_count {d e : GoDoc} (h : docLessID e d = false)
    (hid : e.id = d.id) : e.count ≤ d.count := by
  unfold docLessID at h
  simp [hid] at h
  exact h

/-- If no record has id `x`, the dedup output has no record with id `x`. -/
theorem dedupLoop_filter_no_id (x : Int) (l : List GoDoc) (pid : Int)
    (h : ∀ d ∈ l, d.id ≠ x) :
    (dedupLoop pid l).filter (fun d => d.id == x) = [] := by
  induction l generalizing pid with
  | nil => rfl
  | cons d rest ih =>
    have hd : d.id ≠ x := h d (List.mem_cons_self _ _)
    have hrest : ∀ e ∈ rest, e.id ≠ x := fun e he => h e (List.mem_cons_of_mem d he)
    by_cases hk : pid ≠ d.id ∧ d.deleted = false
    · simp only [dedupLoop, if_pos hk, List.filter_cons]
      simp [hd, ih d.id hrest]
    · simp only [dedupLoop, if_neg hk]
      exact ih d.id hrest

/-- After an id-`x` record has been passed (so `pid = x`), a byID-sorted
tail in which every id is at least `x` contributes no further id-`x`
survivor. -/
theorem dedupLoop_filter_after (x : Int) (l : List GoDoc)
    (hsort : GoSorted docLessID l) (hge : ∀ d ∈ l, x ≤ d.id) :
    (dedupLoop x l).filter (fun d => d.id == x) = [] := by
  induction l with
  | nil => rfl
  | cons d rest ih =>
    rcases List.pairwise_cons.mp hsort with ⟨hd, hrest⟩
    by_cases hid : d.id = x
    · simp only [dedupLoop, hid]
      rw [if_neg (by simp)]
      exact ih hrest (fun e he => hge e (List.mem_cons_of_mem d he))
    · have hgt : x < d.id :=
        lt_of_le_of_ne (hge d (List.mem_cons_self _ _)) (Ne.symm hid)
      have hnone : ∀ e ∈ rest, e.id ≠ x := by
        intro e he
        have := docLessID_false_le (hd e he)
        omega
      by_cases hk : x ≠ d.id ∧ d.deleted = false
      · simp only [dedupLoop, if_pos hk, List.filter_cons]
        simp [hid, dedupLoop_filter_no_id x rest d.id hnone]
      · simp only [dedupLoop, if_neg hk]
        exact dedupLoop_filter_no_id x rest d.id hnone

/-- On a byID-sorted list, with a cursor different from `x`, the dedup output
restricted to id `x` is the first id-`x` record if it is not a tombstone and
nothing otherwise. -/
theorem dedupLoop_filter_first (x : Int) (l : List GoDoc) (pid : Int)
    (hsort : GoSorted docLessID l) (hpid : pid ≠ x) :
    (dedupLoop pid l).filter (fun d => d.id == x)
      = match l.find? (fun d => d.id == x) with
        | none => []
        | some d => if d.deleted then [] else [d] := by
  induction l generalizing pid with
  | nil => rfl
  | cons d rest ih =>
    rcases List.pairwise_cons.mp hsort with ⟨hd, hrest⟩
    by_cases hid : d.id = x
    · have hfind : (d :: rest).find? (fun e => e.id == x) = some d := by
        simp [List.find?_cons, hid]
      rw [hfind]
      have hge : ∀ e ∈ rest, x ≤ e.id := by
        intro e he
        have := docLessID_false_le (hd e he)
        omega
      cases hdel : d.deleted with
      | false =>
        have hk : pid ≠ d.id ∧ d.deleted = false := ⟨by rw [hid]; exact hpid, hdel⟩
        have hstep : dedupLoop pid (d :: rest) = d :: dedupLoop d.id rest := by
          simp only [dedupLoop, if_pos hk]
        rw [hstep, hid]
        simp only [List.filter_cons]
        have hbeq : (d.id == x) = true := by simp [hid]
        rw [if_pos hbeq, dedupLoop_filter_after x rest hrest hge]
        simp [hdel]
      | true =>
        have hk : ¬(pid ≠ d.id ∧ d.deleted = false) := by simp [hdel]
        have hstep : dedupLoop pid (d :: rest) = dedupLoop d.id rest := by
          simp only [dedupLoop, if_neg hk]
        rw [hstep, hid, dedupLoop_filter_after x rest hrest hge]
        simp [hdel]
    · have hfind : (d :: rest).find? (fun e => e.id == x)
          = rest.find? (fun e => e.id == x) := by
        simp [List.find?_cons, hid]
      rw [hfind]
      by_cases hk : pid ≠ d.id ∧ d.deleted = false
      · simp only [dedupLoop, if_pos hk, List.filter_cons]
        simp only [hid, beq_iff_eq, if_neg, decide_eq_true_eq]
        rw [if_neg (by simp [hid])]
        exact ih d.id hrest (fun h => hid (by omega))
      · simp only [dedupLoop, if_neg hk]
        exact ih d.id hrest (fun h => hid (by omega))

/-- Postings for one id, extracted from the builder postings of a
byID-sorted record list: the keyword postings of the first id-`x` record if
it survives, nothing otherwise (`x ≠ -1` keeps clear of the cursor's initial
sentinel). -/
theorem buildPostings_filter_id (x : Int) (l : List GoDoc)
    (hsort : GoSorted docLessID l) (hx : x ≠ -1) :
    (buildPostings l).filter (fun p => p.id == x)
      = match l.find? (fun d => d.id == x) with
        | none => []
        | some d => if d.deleted then [] else docPostings d := by
  unfold buildPostings
  rw [List.filter_flatMap]
  have hper : ∀ d : GoDoc,
      (docPostings d).filter (fun p => p.id == x)
        = if d.id = x then docPostings d else [] := by
    intro d
    by_cases hid : d.id = x
    · rw [if_pos hid]
      unfold docPostings
      rw [List.filter_map]
      simp [hid, Function.comp_def, List.filter_eq_self]
    · rw [if_neg hid]
      unfold docPostings
      rw [List.filter_map]
      have : (fun p : BPosting => p.id == x) ∘ (fun w => (⟨d.id, w, d.rank⟩ : BPosting))
          = fun _ => false := by
        funext w
        simpa using hid
      rw [this]
      simp
  have hflat : (dedupLoop (-1) l).flatMap
        (fun d => (docPostings d).filter (fun p => p.id == x))
      = ((dedupLoop (-1) l).filter (fun d => d.id == x)).flatMap docPostings := by
    generalize dedupLoop (-1) l = s
    induction s with
    | nil => rfl
    | cons d rest ihs =>
      rw [List.flatMap_cons, hper d, List.filter_cons]
      by_cases hid : d.id = x
      · simp [hid, ihs]
      · simp [hid, ihs]
  rw [hflat, dedupLoop_filter_first x l (-1) hsort (fun h => hx h.symm)]
  cases hfind : l.find? (fun d => d.id == x) with
  | none => rfl
  | some d =>
    by_cases hdel : d.deleted
    · simp [hdel]
    · simp [hdel]

/-- Transport of the id-`x` record multiset through the two sorts and the
rank-overwrite of `Build`: the projections of the id-`x` records of the
final byID-sorted list form a permutation of those of the appended history,
and the final list is byID-sorted. -/
theorem pipeline_filter_perm (x : Int) (ops : List BOp) (l1 l2 : List GoDoc)
    (h1 : GoSortOutcome docLessRank (applyOps NewBuilder ops).docs l1)
    (h2 : GoSortOutcome docLessID (assignRanks l1) l2) :
    ((l2.filter (fun d => d.id == x)).map projD).Perm
      (((opsDocs 0 ops).filter (fun d => d.id == x)).map projD) ∧
    GoSorted docLessID l2 := by
  obtain ⟨hperm1, _⟩ := h1
  obtain ⟨hperm2, hsort2⟩ := h2
  refine ⟨?_, hsort2⟩
  have hdocs : (applyOps NewBuilder ops).docs = opsDocs 0 ops := by
    simp [NewBuilder, applyOps_eq]
  rw [hdocs] at hperm1
  have key : ∀ (u v : List GoDoc), u.Perm v →
      ((u.filter (fun d => d.id == x)).map projD).Perm
        ((v.filter (fun d => d.id == x)).map projD) :=
    fun u v h => (h.filter _).map projD
  have step2 := key _ _ hperm2
  have : ((assignRanks l1).filter (fun d => d.id == x)).map projD
      = ((l1.filter (fun d => d.id == x)).map projD) := by
    have hcomm : ∀ (m : List GoDoc) (n : Nat),
        ((assignRanksFrom n m).filter (fun d => d.id == x)).map projD
          = ((m.filter (fun d => d.id == x)).map projD) := by
      intro m
      induction m with
      | nil => intro n; rfl
      | cons d rest ihm =>
        intro n
        simp only [assignRanksFrom, List.filter_cons]
        by_cases hid : d.id = x
        · simp [hid, projD, ihm (n + 1)]
        · simp [hid, ihm (n + 1)]
    exact hcomm l1 0
  rw [this] at step2
  exact step2.trans (key _ _ hperm1)

theorem opsDocs_append (n : Nat) (a b : List BOp) :
    opsDocs n (a ++ b) = opsDocs n a ++ opsDocs (n + a.length) b := by
  induction a generalizing n with
  | nil => simp [opsDocs]
  | cons op rest ih =>
    have harith : n + 1 + rest.length = n + (rest.length + 1) := by omega
    cases op with
    | add i k r =>
      simp only [List.cons_append, opsDocs, List.append_eq, ih (n + 1), harith,
        List.length_cons]
    | delete i =>
      simp only [List.cons_append, opsDocs, List.append_eq, ih (n + 1), harith,
        List.length_cons]

theorem opsDocs_filter_no_id (x : Int) (ops : List BOp) (n : Nat)
    (h : ∀ op ∈ ops, op.opId ≠ x) :
    (opsDocs n ops).filter (fun d => d.id == x) = [] := by
  induction ops generalizing n with
  | nil => rfl
  | cons op rest ih =>
    have hop : op.opId ≠ x := h op (List.mem_cons_self _ _)
    have hrest : ∀ o ∈ rest, o.opId ≠ x := fun o ho => h o (List.mem_cons_of_mem op ho)
    cases op with
    | add i k r =>
      simp only [opsDocs, List.filter_cons]
      have : i ≠ x := hop
      simp [this, ih (n + 1) hrest]
    | delete i =>
      simp only [opsDocs, List.filter_cons]
      have : i ≠ x := hop
      simp [this, ih (n + 1) hrest]

/-- A permutation between two-element lists is the identity or the swap. -/
theorem perm_pair_cases {α : Type} {a b c d : α} (h : ([a, b] : List α).Perm [c, d]) :
    (a = c ∧ b = d) ∨ (a = d ∧ b = c) := by
  have ha : a ∈ [c, d] := h.subset (List.mem_cons_self _ _)
  rcases List.mem_pair.mp ha with hac | had
  · subst hac
    have h2 : ([b] : List α).Perm [d] := h.cons_inv
    have : b = d := by
      have := List.perm_singleton.mp h2
      exact ((List.cons.injEq b [] d []).mp this).1
    exact Or.inl ⟨rfl, this⟩
  · subst had
    have h2 : ([a, b] : List α).Perm [a, c] := h.trans (List.Perm.swap a c [])
    have h3 : ([b] : List α).Perm [c] := h2.cons_inv
    have : b = c := by
      have := List.perm_singleton.mp h3
      exact ((List.cons.injEq b [] c []).mp this).1
    exact Or.inr ⟨rfl, this⟩

/-- From the two-element id-`x` projection multiset and byID-sortedness,
identify the first id-`x` record of the sorted list: it is the one with the
larger insertion counter. -/
theorem find_id_record (x : Int) (l : List GoDoc)
    (hsort : GoSorted docLessID l)
    (t1 t2 : DKey) (_h1x : t1.id = x) (_h2x : t2.id = x)
    (hc : t1.count < t2.count)
    (hA : ((l.filter (fun d => d.id == x)).map projD).Perm [t1, t2]) :
    ∃ d : GoDoc, l.find? (fun e => e.id == x) = some d ∧ projD d = t2 := by
  have hsf : (l.filter (fun d => d.id == x)).Pairwise
      (fun a b => docLessID b a = false) := hsort.filter _
  have hlen : (l.filter (fun d => d.id == x)).length = 2 := by
    have := hA.length_eq
    simpa using this
  obtain ⟨e, f, hef⟩ : ∃ e f, l.filter (fun d => d.id == x) = [e, f] := by
    cases hfl : l.filter (fun d => d.id == x) with
    | nil => rw [hfl] at hlen; simp at hlen
    | cons e rest =>
      cases rest with
      | nil => rw [hfl] at hlen; simp at hlen
      | cons f rest2 =>
        cases rest2 with
        | nil => exact ⟨e, f, rfl⟩
        | cons g rest3 => rw [hfl] at hlen; simp at hlen
  rw [hef] at hA hsf
  have hemem : e ∈ l.filter (fun d => d.id == x) := by
    rw [hef]; exact List.mem_cons_self _ _
  have hfmem : f ∈ l.filter (fun d => d.id == x) := by
    rw [hef]; exact List.mem_cons_of_mem e (List.mem_cons_self _ _)
  have heid : e.id = x := by simpa using (List.of_mem_filter hemem)
  have hfid : f.id = x := by simpa using (List.of_mem_filter hfmem)
  have hcount : f.count ≤ e.count := by
    rcases List.pairwise_cons.mp hsf with ⟨hpair, _⟩
    exact docLessID_false_count (hpair f (List.mem_cons_self _ _)) (by rw [heid, hfid])
  have hhead : l.find? (fun d => d.id == x) = some e := by
    rw [← List.filter_head? (fun d => d.id == x) l, hef]
    rfl
  refine ⟨e, hhead, ?_⟩
  have hperm2 : ([projD e, projD f] : List DKey).Perm [t1, t2] := by simpa using hA
  rcases perm_pair_cases hperm2 with ⟨he, hf⟩ | ⟨he, hf⟩
  · exfalso
    have hce : e.count = t1.count := by rw [← he]; rfl
    have hcf : f.count = t2.count := by rw [← hf]; rfl
    omega
  · exact he

/-- The words of a record's emitted postings are its keyword list. -/
theorem docPostings_map_word (d : GoDoc) :
    (docPostings d).map (fun p => p.word) = d.words := by
  simp [docPostings, Function.comp_def]

/-- Core of last-writer-wins: if the id-`x` records of the history project to
exactly `[t1, t2]` with `t1.count < t2.count`, then the postings that `Build`
emits for `x` are `t2`'s keywords if `t2` is not a tombstone and nothing
otherwise — for every valid outcome of the two unstable sorts. -/
theorem c1_core (x : Int) (hx : x ≠ -1) (ops : List BOp) (l1 l2 : List GoDoc)
    (t1 t2 : DKey) (h1x : t1.id = x) (h2x : t2.id = x) (hc : t1.count < t2.count)
    (hops : ((opsDocs 0 ops).filter (fun d => d.id == x)).map projD = [t1, t2])
    (h1 : GoSortOutcome docLessRank (applyOps NewBuilder ops).docs l1)
    (h2 : GoSortOutcome docLessID (assignRanks l1) l2) :
    ((buildPostings l2).filter (fun p => p.id == x)).map (fun p => p.word)
      = if t2.deleted then [] else t2.words := by
  obtain ⟨hA, hsort2⟩ := pipeline_filter_perm x ops l1 l2 h1 h2
  rw [hops] at hA
  obtain ⟨d, hfind, hproj⟩ := find_id_record x l2 hsort2 t1 t2 h1x h2x hc hA
  rw [buildPostings_filter_id x l2 hsort2 hx, hfind]
  have hdel : d.deleted = t2.deleted := by rw [← hproj]; rfl
  have hwords : d.words = t2.words := by rw [← hproj]; rfl
  by_cases h : t2.deleted
  · simp [hdel, h]
  · have hdf : d.deleted = false := by rw [hdel]; simpa using h
    simp only [hdf]
    rw [if_neg h]
    simp [docPostings_map_word, hwords]

/-- For a history `pre ++ [o1] ++ mid ++ [o2] ++ post` whose only operations
on id `x` are `o1` and `o2`, the id-`x` records are those of the two
singleton segments, at insertion counters `pre.length` and
`pre.length + 1 + mid.length`. -/
theorem filter_opsDocs_shape (x : Int) (pre mid post : List BOp)
    (hpre : ∀ op ∈ pre, op.opId ≠ x)
    (hmid : ∀ op ∈ mid, op.opId ≠ x)
    (hpost : ∀ op ∈ post, op.opId ≠ x) (o1 o2 : BOp) :
    ((opsDocs 0 (pre ++ [o1] ++ mid ++ [o2] ++ post)).filter
        (fun d => d.id == x)).map projD
      = ((opsDocs pre.length [o1]).filter (fun d => d.id == x)).map projD
        ++ ((opsDocs (pre.length + 1 + mid.length) [o2]).filter
            (fun d => d.id == x)).map projD := by
  rw [opsDocs_append, opsDocs_append, opsDocs_append, opsDocs_append]
  simp only [List.filter_append, List.map_append, List.length_append,
    List.length_cons, List.length_nil]
  rw [opsDocs_filter_no_id x pre 0 hpre,
    opsDocs_filter_no_id x mid _ hmid,
    opsDocs_filter_no_id x post _ hpost]
  simp only [List.map_nil, List.nil_append, List.append_nil, Nat.zero_add]

/-- C1 counterexample history: two Adds for id -1. -/
def c1hist : List BOp := [BOp.add (-1) [[97]] 0, BOp.add (-1) [[98]] 0]

/-- C1 counterexample: for the history `Add(-1, ["a"], 0); Add(-1, ["b"], 0)`
(and valid outcomes of both sorts), the built postings for id -1 are EMPTY —
not the keywords of the second Add — because id -1 collides with the initial
value of the dedup walk's `pid` cursor.  This refutes the claim as stated,
which requires the index to contain exactly K2's postings for the id. -/
theorem c1_counterexample :
    GoSortOutcome docLessRank (applyOps NewBuilder c1hist).docs
      (goSortExe docLessRank (applyOps NewBuilder c1hist).docs) ∧
    GoSortOutcome docLessID
      (assignRanks (goSortExe docLessRank (applyOps NewBuilder c1hist).docs))
      (goSortExe docLessID
        (assignRanks (goSortExe docLessRank (applyOps NewBuilder c1hist).docs))) ∧
    ((buildPostings (goSortExe docLessID (assignRanks (goSortExe docLessRank
        (applyOps NewBuilder c1hist).docs)))).filter
      (fun p => p.id == -1)).map (fun p => p.word) = [] ∧
    isort strLeb [[98]] ≠ ([] : List GoStr) := by
  refine ⟨by decide, by decide, by decide, by decide⟩

/-- C1 (corrected): last-writer-wins at Build, for every document id other
than -1 (id -1 collides with the dedup walk's initial cursor value; see the
counterexample).  For any builder history whose only operations on id `x`
are the two shown, and any valid outcomes `l1`, `l2` of the two unstable
sorts in `Build`: after `Add(x,K1,r1); Add(x,K2,r2)` the emitted postings
for `x` are exactly K2's keywords (sorted, since `Add` sorts them); after
`Add(x,K1,r1); Delete(x)` there are none; after `Delete(x); Add(x,K1,r1)`
they are exactly K1's keywords. -/
theorem c1_last_writer_wins (x : Int) (hx : x ≠ -1)
    (pre mid post : List BOp)
    (hpre : ∀ op ∈ pre, op.opId ≠ x)
    (hmid : ∀ op ∈ mid, op.opId ≠ x)
    (hpost : ∀ op ∈ post, op.opId ≠ x) :
    (∀ (K1 : List GoStr) (r1 : Int) (K2 : List GoStr) (r2 : Int)
        (l1 l2 : List GoDoc),
      GoSortOutcome docLessRank
        (applyOps NewBuilder
          (pre ++ [BOp.add x K1 r1] ++ mid ++ [BOp.add x K2 r2] ++ post)).docs l1 →
      GoSortOutcome docLessID (assignRanks l1) l2 →
      ((buildPostings l2).filter (fun p => p.id == x)).map (fun p => p.word)
        = isort strLeb K2) ∧
    (∀ (K1 : List GoStr) (r1 : Int) (l1 l2 : List GoDoc),
      GoSortOutcome docLessRank
        (applyOps NewBuilder
          (pre ++ [BOp.add x K1 r1] ++ mid ++ [BOp.delete x] ++ post)).docs l1 →
      GoSortOutcome docLessID (assignRanks l1) l2 →
      (buildPostings l2).filter (fun p => p.id == x) = []) ∧
    (∀ (K1 : List GoStr) (r1 : Int) (l1 l2 : List GoDoc),
      GoSortOutcome docLessRank
        (applyOps NewBuilder
          (pre ++ [BOp.delete x] ++ mid ++ [BOp.add x K1 r1] ++ post)).docs l1 →
      GoSortOutcome docLessID (assignRanks l1) l2 →
      ((buildPostings l2).filter (fun p => p.id == x)).map (fun p => p.word)
        = isort strLeb K1) := by
  have hcount : pre.length < pre.length + 1 + mid.length := by omega
  refine ⟨?_, ?_, ?_⟩
  · intro K1 r1 K2 r2 l1 l2 h1 h2
    have hops := filter_opsDocs_shape x pre mid post hpre hmid hpost
      (BOp.add x K1 r1) (BOp.add x K2 r2)
    have hseg1 : ((opsDocs pre.length [BOp.add x K1 r1]).filter
        (fun d => d.id == x)).map projD
        = [⟨x, isort strLeb K1, pre.length, false⟩] := by
      simp [opsDocs, projD]
    have hseg2 : ((opsDocs (pre.length + 1 + mid.length) [BOp.add x K2 r2]).filter
        (fun d => d.id == x)).map projD
        = [⟨x, isort strLeb K2, pre.length + 1 + mid.length, false⟩] := by
      simp [opsDocs, projD]
    rw [hseg1, hseg2] at hops
    have := c1_core x hx _ l1 l2 _ _ rfl rfl hcount hops h1 h2
    simpa using this
  · intro K1 r1 l1 l2 h1 h2
    have hops := filter_opsDocs_shape x pre mid post hpre hmid hpost
      (BOp.add x K1 r1) (BOp.delete x)
    have hseg1 : ((opsDocs pre.length [BOp.add x K1 r1]).filter
        (fun d => d.id == x)).map projD
        = [⟨x, isort strLeb K1, pre.length, false⟩] := by
      simp [opsDocs, projD]
    have hseg2 : ((opsDocs (pre.length + 1 + mid.length) [BOp.delete x]).filter
        (fun d => d.id == x)).map projD
        = [⟨x, [], pre.length + 1 + mid.length, true⟩] := by
      simp [opsDocs, projD]
    rw [hseg1, hseg2] at hops
    have h0 := c1_core x hx _ l1 l2 _ _ rfl rfl hcount hops h1 h2
    have h0' : ((buildPostings l2).filter (fun p => p.id == x)).map
        (fun p => p.word) = [] := by simpa using h0
    exact List.map_eq_nil_iff.mp h0'
  · intro K1 r1 l1 l2 h1 h2
    have hops := filter_opsDocs_shape x pre mid post hpre hmid hpost
      (BOp.delete x) (BOp.add x K1 r1)
    have hseg1 : ((opsDocs pre.length [BOp.delete x]).filter
        (fun d => d.id == x)).map projD
        = [⟨x, [], pre.length, true⟩] := by
      simp [opsDocs, projD]
    have hseg2 : ((opsDocs (pre.length + 1 + mid.length) [BOp.add x K1 r1]).filter
        (fun d => d.id == x)).map projD
        = [⟨x, isort strLeb K1, pre.length + 1 + mid.length, false⟩] := by
      simp [opsDocs, projD]
    rw [hseg1, hseg2] at hops
    have := c1_core x hx _ l1 l2 _ _ rfl rfl hcount hops h1 h2
    simpa using this

/-- C1 witness: the amended last-writer-wins applied to the concrete history
`Add(7,["b"],0); Add(7,["a","c"],1)` with the executable sort outcomes. -/
theorem c1_last_writer_wins_witness :
    (7 : Int) ≠ -1 ∧
    GoSortOutcome docLessRank
      (applyOps NewBuilder [BOp.add 7 [[98]] 0, BOp.add 7 [[99], [97]] 1]).docs
      (goSortExe docLessRank
        (applyOps NewBuilder [BOp.add 7 [[98]] 0, BOp.add 7 [[99], [97]] 1]).docs) ∧
    ((buildPostings (goSortExe docLessID (assignRanks (goSortExe docLessRank
        (applyOps NewBuilder
          [BOp.add 7 [[98]] 0, BOp.add 7 [[99], [97]] 1]).docs)))).filter
      (fun p => p.id == 7)).map (fun p => p.word) = isort strLeb [[99], [97]] := by
  refine ⟨by decide, by decide, ?_⟩
  have h := (c1_last_writer_wins 7 (by decide) [] [] []
    (by intro op h; cases h) (by intro op h; cases h) (by intro op h; cases h)).1
    [[98]] 0 [[99], [97]] 1
    (goSortExe docLessRank
      (applyOps NewBuilder [BOp.add 7 [[98]] 0, BOp.add 7 [[99], [97]] 1]).docs)
    (goSortExe docLessID (assignRanks (goSortExe docLessRank
      (applyOps NewBuilder [BOp.add 7 [[98]] 0, BOp.add 7 [[99], [97]] 1]).docs)))
  have hh := h (by decide) (by decide)
  simpa using hh

/-! ## container/heap

The three heaps of the source (mergeHeap in hyb.go, postHeap and compHeap in
results.go) all compare two elements by a single integer key, so Go's
`container/heap` package is embedded once, over `List α` with a key function.
`up` and `down` are the package's sift routines; `heapInit`, `heapPushGo`,
`heapPopGo` are `heap.Init`, `heap.Push`, `heap.Pop` (whose interface
`Push`/`Pop` methods append to / remove from the end of the backing slice,
as all three implementations in the source do).  The loops are fuelled; each
caller passes fuel that dominates the loop's measure (`down` strictly
increases its node index below `n`, `up` strictly decreases it). -/

section GoHeap

variable {α : Type} [Inhabited α] (key : α → Int)

/-- Element read `h[i]`; every read performed by the heap routines is in
bounds when the caller's index arguments are. -/
def geth (l : List α) (i : Nat) : α := l.getD i default

/-- Go's `h.Swap(i, j)`. -/
def swapAt (l : List α) (i j : Nat) : List α :=
  (l.set i (geth l j)).set j (geth l i)

/-- container/heap `down(h, i, n)`. -/
def heapDown : Nat → List α → Nat → Nat → List α
  | 0, l, _, _ => l
  | fuel + 1, l, i, n =>
    let j1 := 2 * i + 1
    if j1 ≥ n then l
    else
      let j := if j1 + 1 < n ∧ key (geth l (j1 + 1)) < key (geth l j1)
        then j1 + 1 else j1
      if ¬ (key (geth l j) < key (geth l i)) then l
      else heapDown fuel (swapAt l i j) j n

/-- container/heap `up(h, j)`. -/
def heapUp : Nat → List α → Nat → List α
  | 0, l, _ => l
  | fuel + 1, l, j =>
    let i := (j - 1) / 2
    if i = j ∨ ¬ (key (geth l j) < key (geth l i)) then l
    else heapUp fuel (swapAt l i j) i

/-- The loop of `heap.Init`: `for i := n/2 - 1; i >= 0; i--`, i.e. `down` at
`k-1, k-2, ..., 0` when the counter starts at `k`. -/
def heapInitLoop (n : Nat) : Nat → List α → List α
  | 0, l => l
  | k + 1, l => heapInitLoop n k (heapDown key n l k n)

/-- container/heap `Init`. -/
def heapInit (l : List α) : List α :=
  heapInitLoop key l.length (l.length / 2) l

/-- container/heap `Push`: append, then sift up from the last index. -/
def heapPushGo (l : List α) (x : α) : List α :=
  heapUp key (l.length + 1) (l ++ [x]) l.length

/-- container/heap `Pop`: swap the root with the last element, sift the new
root down over the shortened range, then remove and return the last element.
Every call site in the source guards `h.Len() > 0` (Go would index out of
range otherwise). -/
def heapPopGo (l : List α) : α × List α :=
  let n := l.length - 1
  let l2 := heapDown key l.length (swapAt l 0 n) 0 n
  (geth l2 n, l2.take n)

theorem swapAt_length (l : List α) (i j : Nat) :
    (swapAt l i j).length = l.length := by
  simp [swapAt]

theorem heapDown_length (fuel : Nat) (l : List α) (i n : Nat) :
    (heapDown key fuel l i n).length = l.length := by
  induction fuel generalizing l i with
  | zero => rfl
  | succ fuel ih =>
    unfold heapDown
    dsimp only
    split
    · rfl
    · split
      · split
        · rfl
        · rw [ih, swapAt_length]
      · split
        · rfl
        · rw [ih, swapAt_length]

theorem heapUp_length (fuel : Nat) (l : List α) (j : Nat) :
    (heapUp key fuel l j).length = l.length := by
  induction fuel generalizing l j with
  | zero => rfl
  | succ fuel ih =>
    unfold heapUp
    dsimp only
    split
    · rfl
    · rw [ih, swapAt_length]

theorem heapInitLoop_length (n k : Nat) (l : List α) :
    (heapInitLoop key n k l).length = l.length := by
  induction k generalizing l with
  | zero => rfl
  | succ k ih => rw [heapInitLoop, ih, heapDown_length]

end GoHeap

section GoHeapPerm

variable {α : Type} [Inhabited α] [DecidableEq α] (key : α → Int)

theorem swapAt_perm (l : List α) (i j : Nat) (hi : i < l.length)
    (hj : j < l.length) : (swapAt l i j).Perm l := by
  rw [List.perm_iff_count]
  intro a
  unfold swapAt geth
  rw [List.getD_eq_getElem l default hi, List.getD_eq_getElem l default hj]
  have hj' : j < (l.set i l[j]).length := by
    rw [List.length_set]; exact hj
  rw [List.count_set _ _ _ _ hj', List.count_set _ _ _ _ hi]
  have hci : 0 < List.count l[i] l := List.count_pos_iff.mpr (List.getElem_mem hi)
  have hcj : 0 < List.count l[j] l := List.count_pos_iff.mpr (List.getElem_mem hj)
  by_cases hij : i = j
  · subst hij
    have hset : (l.set i l[i])[i] = l[i] := List.getElem_set_self hj'
    rw [hset]
    by_cases hbi : l[i] = a
    · have : 0 < List.count a l := hbi ▸ hci
      simp only [hbi, beq_self_eq_true, if_true]
      omega
    · simp [hbi]
  · have hset : (l.set i l[j])[j] = l[j] :=
      List.getElem_set_ne hij (by rw [List.length_set]; exact hj)
    rw [hset]
    by_cases hbi : l[i] = a <;> by_cases hbj : l[j] = a
    · have h1 : 0 < List.count a l := hbi ▸ hci
      simp only [hbi, hbj, beq_self_eq_true, if_true]
      omega
    · have h1 : 0 < List.count a l := hbi ▸ hci
      rw [show (l[j] == a) = false by simp [hbj],
        show (l[i] == a) = true by simp [hbi]]
      simp only [if_pos (rfl : (true : Bool) = true), if_neg Bool.false_ne_true, if_true, if_false]
      omega
    · have h1 : 0 < List.count a l := hbj ▸ hcj
      rw [show (l[j] == a) = true by simp [hbj],
        show (l[i] == a) = false by simp [hbi]]
      simp only [if_pos (rfl : (true : Bool) = true), if_neg Bool.false_ne_true, if_true, if_false]
      omega
    · rw [show (l[j] == a) = false by simp [hbj],
        show (l[i] == a) = false by simp [hbi]]
      simp only [if_neg Bool.false_ne_true, if_true, if_false]
      omega

end GoHeapPerm

/-! ### Heap order invariants

`HeapFromN key l n i` says every parent-child edge of the implicit binary
tree on slots `[0, n)` whose parent index is at least `i` is heap-ordered
(the parent's key is at most the child's).  `HeapN` (with `i = 0`) is the
invariant `container/heap` maintains.  `DownInv`/`UpInv` are the
almost-heap invariants preserved by the sift loops: all such edges hold
except possibly those leaving the current node, whose children are instead
dominated by the current node's parent. -/

section GoHeapTheory

variable {α : Type} [Inhabited α] [DecidableEq α] (key : α → Int)

def HeapFromN (l : List α) (n i : Nat) : Prop :=
  ∀ j, 1 ≤ j → j < n → i ≤ (j - 1) / 2 →
    key (geth l ((j - 1) / 2)) ≤ key (geth l j)

def HeapN (l : List α) (n : Nat) : Prop := HeapFromN key l n 0

def DownInv (l : List α) (n i c : Nat) : Prop :=
  (∀ j, 1 ≤ j → j < n → i ≤ (j - 1) / 2 → (j - 1) / 2 ≠ c →
      key (geth l ((j - 1) / 2)) ≤ key (geth l j)) ∧
  (∀ j, 1 ≤ j → j < n → (j - 1) / 2 = c → 0 < c → i ≤ (c - 1) / 2 →
      key (geth l ((c - 1) / 2)) ≤ key (geth l j))

def UpInv (l : List α) (n j : Nat) : Prop :=
  (∀ c, 1 ≤ c → c < n → c ≠ j → key (geth l ((c - 1) / 2)) ≤ key (geth l c)) ∧
  (∀ c, 1 ≤ c → c < n → (c - 1) / 2 = j → 0 < j →
      key (geth l ((j - 1) / 2)) ≤ key (geth l c))

theorem geth_swapAt (l : List α) (i j k : Nat) (hi : i < l.length)
    (hj : j < l.length) :
    geth (swapAt l i j) k
      = if k = j then geth l i else if k = i then geth l j else geth l k := by
  unfold swapAt geth
  by_cases hk : k < l.length
  · have hk1 : k < ((l.set i (l.getD j default)).set j (l.getD i default)).length := by
      simp only [List.length_set]; exact hk
    have hk2 : k < (l.set i (l.getD j default)).length := by
      simp only [List.length_set]; exact hk
    rw [List.getD_eq_getElem _ default hk1, List.getD_eq_getElem _ default hk]
    by_cases hkj : k = j
    · subst hkj
      rw [if_pos rfl, List.getElem_set_self hk1, List.getD_eq_getElem _ default hi]
    · rw [if_neg hkj, List.getElem_set_ne (fun h => hkj h.symm) hk1]
      by_cases hki : k = i
      · subst hki
        rw [if_pos rfl, List.getElem_set_self hk2, List.getD_eq_getElem _ default hj]
      · rw [if_neg hki, List.getElem_set_ne (fun h => hki h.symm) hk2]
  · have hkj : k ≠ j := fun h => hk (h ▸ hj)
    have hki : k ≠ i := fun h => hk (h ▸ hi)
    rw [if_neg hkj, if_neg hki]
    rw [List.getD_eq_default, List.getD_eq_default]
    · omega
    · simp only [List.length_set]; omega

/-- A node without children in range is left unchanged by `down`. -/
theorem heapDown_leaf (fuel : Nat) (l : List α) (c n : Nat) (h : 2 * c + 1 ≥ n) :
    heapDown key fuel l c n = l := by
  cases fuel with
  | zero => rfl
  | succ fuel =>
    unfold heapDown
    dsimp only
    rw [if_pos h]

/-- The parent of every slot in `[1, n)` is below `n/2`, so a list is
heap-ordered from `n/2` on vacuously. -/
theorem heapFromN_half (l : List α) (n : Nat) : HeapFromN key l n (n / 2) := by
  intro j h1 h2 h3
  omega

theorem heapFromN_root_min (l : List α) (n : Nat) (h : HeapFromN key l n 0) :
    ∀ k, k < n → key (geth l 0) ≤ key (geth l k) := by
  intro k
  induction k using Nat.strong_induction_on with
  | _ k ih =>
    intro hk
    rcases Nat.eq_zero_or_pos k with hz | hpos
    · subst hz; exact le_refl _
    · have hpar : (k - 1) / 2 < k := by omega
      have h1 := h k hpos hk (Nat.zero_le _)
      exact le_trans (ih _ hpar (lt_trans hpar hk)) h1

/-- Correctness of `down`: starting at node `c ≥ i` with the almost-heap
invariant, the sift produces a permutation that is heap-ordered from `i`,
leaving slots at or beyond `n` untouched. -/
theorem heapDown_ok : ∀ (fuel : Nat) (l : List α) (n i c : Nat),
    n ≤ l.length → i ≤ c → c < n → n ≤ fuel + c →
    DownInv key l n i c →
    (heapDown key fuel l c n).Perm l ∧
    (∀ k, n ≤ k → geth (heapDown key fuel l c n) k = geth l k) ∧
    HeapFromN key (heapDown key fuel l c n) n i := by
  intro fuel
  induction fuel with
  | zero =>
    intro l n i c hn hic hcn hfuel hinv
    omega
  | succ fuel ih =>
    intro l n i c hn hic hcn hfuel hinv
    obtain ⟨inv1, inv2⟩ := hinv
    show (heapDown key (fuel + 1) l c n).Perm l ∧ _
    unfold heapDown
    dsimp only
    by_cases hleaf : 2 * c + 1 ≥ n
    · rw [if_pos hleaf]
      refine ⟨List.Perm.refl _, fun k _ => rfl, ?_⟩
      intro j h1 h2 h3
      by_cases hpc : (j - 1) / 2 = c
      · omega
      · exact inv1 j h1 h2 h3 hpc
    · rw [if_neg hleaf]
      set j1 := 2 * c + 1 with hj1
      set j := if j1 + 1 < n ∧ key (geth l (j1 + 1)) < key (geth l j1)
        then j1 + 1 else j1 with hjdef
      have hjn : j < n := by
        rw [hjdef]
        split
        · omega
        · omega
      have hjc : (j - 1) / 2 = c := by
        rw [hjdef]
        split <;> omega
      have hcj : c < j := by
        rw [hjdef]
        split <;> omega
      have hjmin : ∀ e, 1 ≤ e → e < n → (e - 1) / 2 = c →
          key (geth l j) ≤ key (geth l e) := by
        intro e he1 he2 hec
        have : e = j1 ∨ e = j1 + 1 := by omega
        rw [hjdef]
        split
        · rename_i hsel
          rcases this with he | he
          · subst he; exact le_of_lt hsel.2
          · subst he; exact le_refl _
        · rename_i hsel
          rcases this with he | he
          · subst he; exact le_refl _
          · subst he
            rcases Classical.em (j1 + 1 < n) with hlt | hlt
            · exact le_of_not_lt (fun h => hsel ⟨hlt, h⟩)
            · omega
      by_cases hstop : ¬ (key (geth l j) < key (geth l c))
      · rw [if_pos hstop]
        refine ⟨List.Perm.refl _, fun k _ => rfl, ?_⟩
        intro e h1 h2 h3
        by_cases hpc : (e - 1) / 2 = c
        · rw [hpc]
          have h4 : key (geth l j) ≤ key (geth l e) := hjmin e h1 h2 hpc
          have h5 : key (geth l c) ≤ key (geth l j) := le_of_not_lt hstop
          exact le_trans h5 h4
        · exact inv1 e h1 h2 h3 hpc
      · rw [if_neg hstop]
        push_neg at hstop
        have hjl : j < l.length := lt_of_lt_of_le hjn hn
        have hcl : c < l.length := lt_of_lt_of_le hcn hn
        have hswap : ∀ k, geth (swapAt l c j) k
            = if k = j then geth l c else if k = c then geth l j else geth l k :=
          fun k => geth_swapAt l c j k hcl hjl
        have hswlen : (swapAt l c j).length = l.length := swapAt_length l c j
        have hinv' : DownInv key (swapAt l c j) n i j := by
          constructor
          · intro e h1 h2 h3 h4
            by_cases hpc : (e - 1) / 2 = c
            · have hv1 : geth (swapAt l c j) ((e - 1) / 2) = geth l j := by
                rw [hswap, if_neg h4, if_pos hpc]
              by_cases hej : e = j
              · have hv2 : geth (swapAt l c j) e = geth l c := by
                  rw [hswap, if_pos hej]
                rw [hv1, hv2]
                exact le_of_lt hstop
              · have hec : e ≠ c := by omega
                have hv2 : geth (swapAt l c j) e = geth l e := by
                  rw [hswap, if_neg hej, if_neg hec]
                rw [hv1, hv2]
                exact hjmin e h1 h2 hpc
            · have hv1 : geth (swapAt l c j) ((e - 1) / 2) = geth l ((e - 1) / 2) := by
                rw [hswap, if_neg h4, if_neg hpc]
              by_cases hec : e = c
              · have hej : e ≠ j := by omega
                have hv2 : geth (swapAt l c j) e = geth l j := by
                  rw [hswap, if_neg hej, if_pos hec]
                rw [hv1, hv2]
                subst hec
                have h0e : 0 < e := h1
                exact inv2 j (by omega) hjn hjc h0e h3
              · have hej : e ≠ j := by
                  intro h
                  rw [h] at hpc
                  exact hpc hjc
                have hv2 : geth (swapAt l c j) e = geth l e := by
                  rw [hswap, if_neg hej, if_neg hec]
                rw [hv1, hv2]
                exact inv1 e h1 h2 h3 hpc
          · intro e h1 h2 hpj h0j hic2
            have hej : e ≠ j := by omega
            have hec : e ≠ c := by omega
            have hcj' : c ≠ j := by omega
            have hv1 : geth (swapAt l c j) ((j - 1) / 2) = geth l j := by
              rw [hswap, hjc, if_neg hcj', if_pos rfl]
            have hv2 : geth (swapAt l c j) e = geth l e := by
              rw [hswap, if_neg hej, if_neg hec]
            rw [hv1, hv2]
            have hx1 : i ≤ (e - 1) / 2 := by omega
            have hx2 : (e - 1) / 2 ≠ c := by omega
            have hold := inv1 e h1 h2 hx1 hx2
            rw [hpj] at hold
            exact hold
        obtain ⟨hperm, huntouched, hheap⟩ :=
          ih (swapAt l c j) n i j (by omega) (by omega) hjn (by omega) hinv'
        refine ⟨hperm.trans (swapAt_perm l c j hcl hjl), ?_, hheap⟩
        intro k hk
        rw [huntouched k hk, hswap, if_neg (by omega), if_neg (by omega)]

/-- Correctness of `up`: starting at node `j` with the almost-heap
invariant, the sift produces a heap-ordered permutation, leaving slots at or
beyond `n` untouched. -/
theorem heapUp_ok : ∀ (fuel : Nat) (l : List α) (n j : Nat),
    n ≤ l.length → j < n → j < fuel →
    UpInv key l n j →
    (heapUp key fuel l j).Perm l ∧
    (∀ k, n ≤ k → geth (heapUp key fuel l j) k = geth l k) ∧
    HeapN key (heapUp key fuel l j) n := by
  intro fuel
  induction fuel with
  | zero =>
    intro l n j hn hjn hfuel hinv
    omega
  | succ fuel ih =>
    intro l n j hn hjn hfuel hinv
    obtain ⟨inv1, inv2⟩ := hinv
    unfold heapUp
    dsimp only
    by_cases hstop : (j - 1) / 2 = j ∨ ¬ (key (geth l j) < key (geth l ((j - 1) / 2)))
    · rw [if_pos hstop]
      refine ⟨List.Perm.refl _, fun k _ => rfl, ?_⟩
      intro c h1 h2 _
      by_cases hcj : c = j
      · subst hcj
        rcases hstop with hs | hs
        · omega
        · exact le_of_not_lt hs
      · exact inv1 c h1 h2 hcj
    · rw [if_neg hstop]
      push_neg at hstop
      obtain ⟨hij, hlt⟩ := hstop
      have hj1 : 1 ≤ j := by omega
      have hij' : (j - 1) / 2 < j := by omega
      set i := (j - 1) / 2 with hidef
      have hil : i < l.length := by omega
      have hjl : j < l.length := by omega
      have hswap : ∀ k, geth (swapAt l i j) k
          = if k = j then geth l i else if k = i then geth l j else geth l k :=
        fun k => geth_swapAt l i j k hil hjl
      have hinv' : UpInv key (swapAt l i j) n i := by
        constructor
        · intro c h1 h2 hci
          by_cases hcj : c = j
          · have hv1 : geth (swapAt l i j) ((c - 1) / 2) = geth l j := by
              rw [hswap, hcj, if_neg (show ¬ (j - 1) / 2 = j by omega),
                if_pos hidef.symm]
            have hv2 : geth (swapAt l i j) c = geth l i := by
              rw [hswap, if_pos hcj]
            rw [hv1, hv2]
            exact le_of_lt hlt
          · by_cases hpj : (c - 1) / 2 = j
            · have hv1 : geth (swapAt l i j) ((c - 1) / 2) = geth l i := by
                rw [hswap, if_pos hpj]
              have hcic : c ≠ i := by omega
              have hv2 : geth (swapAt l i j) c = geth l c := by
                rw [hswap, if_neg hcj, if_neg hcic]
              rw [hv1, hv2]
              exact inv2 c h1 h2 hpj (by omega)
            · by_cases hpi : (c - 1) / 2 = i
              · have hv1 : geth (swapAt l i j) ((c - 1) / 2) = geth l j := by
                  have hij2 : i ≠ j := by omega
                  rw [hswap, hpi, if_neg hij2, if_pos rfl]
                have hv2 : geth (swapAt l i j) c = geth l c := by
                  rw [hswap, if_neg hcj, if_neg hci]
                rw [hv1, hv2]
                have hold := inv1 c h1 h2 hcj
                rw [hpi] at hold
                exact le_trans (le_of_lt hlt) hold
              · have hv1 : geth (swapAt l i j) ((c - 1) / 2) = geth l ((c - 1) / 2) := by
                  rw [hswap, if_neg hpj, if_neg hpi]
                have hv2 : geth (swapAt l i j) c = geth l c := by
                  rw [hswap, if_neg hcj, if_neg hci]
                rw [hv1, hv2]
                exact inv1 c h1 h2 hcj
        · intro c h1 h2 hpi h0i
          have hgi : (i - 1) / 2 ≠ j := by omega
          have hgi2 : (i - 1) / 2 ≠ i := by omega
          have hv1 : geth (swapAt l i j) ((i - 1) / 2) = geth l ((i - 1) / 2) := by
            rw [hswap, if_neg hgi, if_neg hgi2]
          rw [hv1]
          have hedge1 : key (geth l ((i - 1) / 2)) ≤ key (geth l i) := by
            have hij2 : i ≠ j := by omega
            exact inv1 i (by omega) (by omega) hij2
          by_cases hcj : c = j
          · have hv2 : geth (swapAt l i j) c = geth l i := by
              rw [hswap, if_pos hcj]
            rw [hv2]
            exact hedge1
          · have hci : c ≠ i := by omega
            have hv2 : geth (swapAt l i j) c = geth l c := by
              rw [hswap, if_neg hcj, if_neg hci]
            rw [hv2]
            have hedge2 : key (geth l i) ≤ key (geth l c) := by
              have hc2 := inv1 c h1 h2 hcj
              rw [hpi] at hc2
              exact hc2
            exact le_trans hedge1 hedge2
      obtain ⟨hperm, huntouched, hheap⟩ :=
        ih (swapAt l i j) n i (by rw [swapAt_length]; exact hn) (by omega) (by omega) hinv'
      refine ⟨hperm.trans (swapAt_perm l i j hil hjl), ?_, hheap⟩
      intro k hk
      rw [huntouched k hk, hswap, if_neg (by omega), if_neg (by omega)]

/-- Correctness of the `heap.Init` loop: if edges with parent index at least
`k` are already heap-ordered, running `down` at `k-1, ..., 0` heap-orders
the whole prefix. -/
theorem heapInitLoop_ok : ∀ (k : Nat) (l : List α) (n : Nat),
    n ≤ l.length → 2 * k ≤ n → HeapFromN key l n k →
    (heapInitLoop key n k l).Perm l ∧
    HeapFromN key (heapInitLoop key n k l) n 0 := by
  intro k
  induction k with
  | zero =>
    intro l n hn hk hheap
    exact ⟨List.Perm.refl _, hheap⟩
  | succ k ih =>
    intro l n hn hk hheap
    have hkn : k < n := by omega
    have hinv : DownInv key l n k k := by
      constructor
      · intro j h1 h2 h3 h4
        exact hheap j h1 h2 (by omega)
      · intro j h1 h2 hpj h0k hik
        omega
    obtain ⟨hperm, _, hheap'⟩ :=
      heapDown_ok key n l n k k hn (le_refl k) hkn (by omega) hinv
    rw [heapInitLoop]
    obtain ⟨hperm2, hheap2⟩ := ih (heapDown key n l k n) n
      (by rw [heapDown_length]; exact hn) (by omega) hheap'
    exact ⟨hperm2.trans hperm, hheap2⟩

/-- Correctness of `heap.Init`. -/
theorem heapInit_ok (l : List α) :
    (heapInit key l).Perm l ∧ (heapInit key l).length = l.length ∧
    HeapN key (heapInit key l) l.length := by
  obtain ⟨hperm, hheap⟩ := heapInitLoop_ok key (l.length / 2) l l.length
    (le_refl _) (by omega) (heapFromN_half key l l.length)
  exact ⟨hperm, heapInitLoop_length key _ _ l, hheap⟩

theorem geth_append_lt (l : List α) (xs : List α) (k : Nat) (h : k < l.length) :
    geth (l ++ xs) k = geth l k := by
  unfold geth
  rw [List.getD_eq_getElem _ default (by rw [List.length_append]; omega),
    List.getD_eq_getElem _ default h]
  exact List.getElem_append_left h

/-- Correctness of `heap.Push`. -/
theorem heapPushGo_ok (l : List α) (x : α) (hl : HeapN key l l.length) :
    (heapPushGo key l x).Perm (x :: l) ∧
    (heapPushGo key l x).length = l.length + 1 ∧
    HeapN key (heapPushGo key l x) (l.length + 1) := by
  have hlen : (l ++ [x]).length = l.length + 1 := by simp
  have hinv : UpInv key (l ++ [x]) (l.length + 1) l.length := by
    constructor
    · intro c h1 h2 hc
      have hcl : c < l.length := by omega
      have hpl : (c - 1) / 2 < l.length := by omega
      rw [geth_append_lt _ _ _ hcl, geth_append_lt _ _ _ hpl]
      exact hl c h1 hcl (Nat.zero_le _)
    · intro c h1 h2 hpc h0
      omega
  obtain ⟨hperm, _, hheap⟩ := heapUp_ok key (l.length + 1) (l ++ [x])
    (l.length + 1) l.length (by omega) (by omega) (by omega) hinv
  refine ⟨hperm.trans (List.perm_append_singleton x l), ?_, ?_⟩
  · unfold heapPushGo
    rw [heapUp_length]
    exact hlen
  · exact hheap

/-- A non-empty list is its first part plus its last element. -/
theorem take_append_geth (l : List α) (hne : l ≠ []) :
    l.take (l.length - 1) ++ [geth l (l.length - 1)] = l := by
  induction l with
  | nil => exact absurd rfl hne
  | cons a rest ih =>
    cases rest with
    | nil => simp [geth]
    | cons b rest2 =>
      have h := ih (by simp)
      have hlen : (a :: b :: rest2).length - 1 = (b :: rest2).length - 1 + 1 := by
        simp
      rw [hlen, List.take_succ_cons]
      unfold geth
      rw [List.getD_cons_succ]
      unfold geth at h
      rw [List.cons_append, h]

theorem geth_take (l : List α) (m k : Nat) (hk : k < m) :
    geth (l.take m) k = geth l k := by
  unfold geth
  by_cases hkl : k < l.length
  · have h1 : k < (l.take m).length := by
      rw [List.length_take]; omega
    rw [List.getD_eq_getElem _ default h1, List.getD_eq_getElem _ default hkl]
    exact List.getElem_take l
  · rw [List.getD_eq_default _ default (by rw [List.length_take]; omega),
      List.getD_eq_default _ default (by omega)]

/-- Correctness of `heap.Pop` on a non-empty heap: it returns the root (a
minimal-key element) and leaves a heap of the remaining elements. -/
theorem heapPopGo_ok (l : List α) (hne : l ≠ []) (hl : HeapN key l l.length) :
    (heapPopGo key l).1 = geth l 0 ∧
    ((heapPopGo key l).1 :: (heapPopGo key l).2).Perm l ∧
    (heapPopGo key l).2.length = l.length - 1 ∧
    HeapN key (heapPopGo key l).2 (l.length - 1) := by
  have hn : 1 ≤ l.length := by
    cases l with
    | nil => exact absurd rfl hne
    | cons a as => simp
  set n := l.length with hndef
  have h0n : 0 < n := hn
  have hn1 : n - 1 < n := by omega
  have hswap : ∀ k, geth (swapAt l 0 (n - 1)) k
      = if k = n - 1 then geth l 0 else if k = 0 then geth l (n - 1) else geth l k :=
    fun k => geth_swapAt l 0 (n - 1) k (by omega) (by omega)
  have hswlen : (swapAt l 0 (n - 1)).length = n := swapAt_length l 0 (n - 1)
  have hinv : DownInv key (swapAt l 0 (n - 1)) (n - 1) 0 0 := by
    constructor
    · intro j h1 h2 _ h4
      have hj0 : j ≠ 0 := by omega
      have hjn1 : j ≠ n - 1 := by omega
      have hp0 : (j - 1) / 2 ≠ n - 1 := by omega
      have hv1 : geth (swapAt l 0 (n - 1)) ((j - 1) / 2) = geth l ((j - 1) / 2) := by
        rw [hswap, if_neg hp0, if_neg h4]
      have hv2 : geth (swapAt l 0 (n - 1)) j = geth l j := by
        rw [hswap, if_neg hjn1, if_neg hj0]
      rw [hv1, hv2]
      exact hl j h1 (by omega) (Nat.zero_le _)
    · intro j h1 h2 hpj h0 _
      omega
  have htrip : (heapDown key n (swapAt l 0 (n - 1)) 0 (n - 1)).Perm
        (swapAt l 0 (n - 1)) ∧
      (∀ k, n - 1 ≤ k → geth (heapDown key n (swapAt l 0 (n - 1)) 0 (n - 1)) k
        = geth (swapAt l 0 (n - 1)) k) ∧
      HeapFromN key (heapDown key n (swapAt l 0 (n - 1)) 0 (n - 1)) (n - 1) 0 := by
    by_cases hone : n = 1
    · rw [heapDown_leaf key n (swapAt l 0 (n - 1)) 0 (n - 1) (by omega)]
      refine ⟨List.Perm.refl _, fun k hk => rfl, ?_⟩
      intro j h1 h2 h3
      omega
    · exact heapDown_ok key n (swapAt l 0 (n - 1)) (n - 1) 0 0
        (by omega) (le_refl 0) (by omega) (by omega) hinv
  obtain ⟨hperm, huntouched, hheap⟩ := htrip
  set ld := heapDown key n (swapAt l 0 (n - 1)) 0 (n - 1) with hld
  have hlen2 : ld.length = n := by
    rw [hld, heapDown_length, hswlen]
  have hval : geth ld (n - 1) = geth l 0 := by
    rw [huntouched (n - 1) (le_refl _), hswap, if_pos rfl]
  have hpop : heapPopGo key l = (geth ld (n - 1), ld.take (n - 1)) := rfl
  have hdecomp : ld.take (n - 1) ++ [geth ld (n - 1)] = ld := by
    have hldne : ld ≠ [] := by
      intro h
      rw [h] at hlen2
      simp at hlen2
      omega
    have h1 := take_append_geth ld hldne
    rw [hlen2] at h1
    exact h1
  rw [hpop]
  refine ⟨hval, ?_, ?_, ?_⟩
  · have hl1 : (geth ld (n - 1) :: ld.take (n - 1)).Perm
        (ld.take (n - 1) ++ [geth ld (n - 1)]) :=
      (List.perm_append_singleton _ _).symm
    have hl2 : (swapAt l 0 (n - 1)).Perm l :=
      swapAt_perm l 0 (n - 1) (by omega) (by omega)
    have hl3 : (ld.take (n - 1) ++ [geth ld (n - 1)]).Perm ld := by
      rw [hdecomp]
    exact (hl1.trans hl3).trans (hperm.trans hl2)
  · rw [List.length_take, hlen2]
    omega
  · intro j h1 h2 h3
    have hjn : j < n - 1 := h2
    have hpn : (j - 1) / 2 < n - 1 := by omega
    rw [geth_take _ _ _ hjn, geth_take _ _ _ hpn]
    exact hheap j h1 h2 h3

end GoHeapTheory

/-! ## hyb.go: query-time postings and the k-way merge -/

/-- hyb.go `iposting`: all three fields hold uint32 values. -/
structure IPost where
  id : Nat
  word : Nat
  rank : Nat
deriving DecidableEq

instance : Inhabited IPost := ⟨⟨0, 0, 0⟩⟩

/-- hyb.go `mergeElem`: a cursor into one posting array (`src` is the array
behind Go's `ptr`, `idx` the cursor, `value` the cached doc id there). -/
structure MergeElem where
  src : List IPost
  idx : Nat
  value : Nat
deriving DecidableEq

instance : Inhabited MergeElem := ⟨⟨[], 0, 0⟩⟩

/-- `mergeHeap.Less` compares the cached doc ids. -/
def mergeKey (e : MergeElem) : Int := (e.value : Int)

/-- Sorted by ascending doc id (ties allowed). -/
def PostsSorted (l : List IPost) : Prop := l.Pairwise (fun a b => a.id ≤ b.id)

/-- The postings still to be consumed from the cursors of a merge heap. -/
def remPosts (h : List MergeElem) : List IPost :=
  (h.map (fun e => e.src.drop e.idx)).flatten

/-- The number of postings still to be consumed. -/
def remCount (h : List MergeElem) : Nat :=
  (h.map (fun e => e.src.length - e.idx)).sum

/-- The `for h.Len() > 0` loop of hyb.go `merge`: pop the cursor with the
least doc id, emit its current posting, advance it and push it back while
it has postings left.  `none` models the out-of-range panic (never reached
with well-formed cursors) or fuel exhaustion (never reached with fuel above
`remCount`). -/
def mergeLoop : Nat → List MergeElem → List IPost → Option (List IPost)
  | 0, h, out => if h.length = 0 then some out else none
  | fuel + 1, h, out =>
    if h.length = 0 then some out
    else
      let ep := heapPopGo mergeKey h
      let e := ep.1
      match e.src[e.idx]? with
      | none => none
      | some p =>
        if e.idx + 1 < e.src.length then
          mergeLoop fuel
            (heapPushGo mergeKey ep.2
              ⟨e.src, e.idx + 1, (geth e.src (e.idx + 1)).id⟩)
            (out ++ [p])
        else
          mergeLoop fuel ep.2 (out ++ [p])

/-- The initial raw pushes of hyb.go `merge`: one cursor per input array, in
order, caching `p[0].id`; `none` models the panic on an empty input array. -/
def mergeInit : List (List IPost) → Option (List MergeElem)
  | [] => some []
  | p :: rest =>
    match p with
    | [] => none
    | q :: _ => (mergeInit rest).map (fun h => (⟨p, 0, q.id⟩ : MergeElem) :: h)

/-- hyb.go `merge(results, posts)`: with a single input array the result is
that array; otherwise the raw cursors are heapified with `heap.Init` and
drained by the k-way loop.  The previous contents of `results` are
truncated away (`out := (*results)[:0]`), so the output does not depend on
them. -/
def merge (results : List IPost) (posts : List (List IPost)) : Option (List IPost) :=
  if posts.length = 1 then some (posts.getD 0 [])
  else
    match mergeInit posts with
    | none => none
    | some h0 =>
      mergeLoop (remCount h0 + 1) (heapInit mergeKey h0) (results.take 0)

theorem remPosts_perm {h h' : List MergeElem} (hp : h.Perm h') :
    (remPosts h).Perm (remPosts h') :=
  (hp.map _).flatten

theorem remCount_perm {h h' : List MergeElem} (hp : h.Perm h') :
    remCount h = remCount h' :=
  (hp.map _).sum_eq

theorem remCount_eq_length (h : List MergeElem) :
    remCount h = (remPosts h).length := by
  unfold remCount remPosts
  induction h with
  | nil => rfl
  | cons e rest ih =>
    simp only [List.map_cons, List.sum_cons, List.flatten_cons, List.length_append, ih]
    simp [List.length_drop]

/-- Main invariant proof for the merge loop. -/
theorem mergeLoop_ok : ∀ (fuel : Nat) (h : List MergeElem) (out : List IPost),
    remCount h < fuel →
    HeapN mergeKey h h.length →
    (∀ e ∈ h, e.idx < e.src.length ∧ e.value = (geth e.src e.idx).id ∧
      PostsSorted e.src) →
    PostsSorted out →
    (∀ p ∈ out, ∀ e ∈ h, ∀ q ∈ e.src.drop e.idx, p.id ≤ q.id) →
    ∃ res, mergeLoop fuel h out = some res ∧
      res.Perm (out ++ remPosts h) ∧ PostsSorted res := by
  intro fuel
  induction fuel with
  | zero =>
    intro h out hfuel _ _ _ _
    omega
  | succ fuel ih =>
    intro h out hfuel hheap hcur hout hbound
    unfold mergeLoop
    by_cases hempty : h.length = 0
    · rw [if_pos hempty]
      refine ⟨out, rfl, ?_, hout⟩
      have : h = [] := List.length_eq_zero.mp hempty
      subst this
      simp [remPosts]
    · rw [if_neg hempty]
      dsimp only
      have hne : h ≠ [] := by
        intro hn; rw [hn] at hempty; exact hempty rfl
      obtain ⟨hval, hpperm, hplen, hpheap⟩ := heapPopGo_ok mergeKey h hne hheap
      set e := (heapPopGo mergeKey h).1 with hedef
      set h1 := (heapPopGo mergeKey h).2 with h1def
      have hmem : e ∈ h := hpperm.subset (List.mem_cons_self _ _)
      obtain ⟨hidx, hvalue, hsorted⟩ := hcur e hmem
      have hrootmin : ∀ f ∈ h, mergeKey e ≤ mergeKey f := by
        intro f hf
        obtain ⟨k, hk, hfk⟩ := List.getElem_of_mem hf
        have := heapFromN_root_min mergeKey h h.length hheap k hk
        rw [hval]
        have hgk : geth h k = f := by
          unfold geth
          rw [List.getD_eq_getElem _ default hk, hfk]
        rw [← hgk]
        exact this
      have hget : e.src[e.idx]? = some (geth e.src e.idx) := by
        rw [List.getElem?_eq_getElem hidx]
        unfold geth
        rw [List.getD_eq_getElem _ default hidx]
      rw [hget]
      dsimp only
      set p := geth e.src e.idx with hpdef
      have hpid : p.id = e.value := hvalue.symm
      have hdrop : e.src.drop e.idx = p :: e.src.drop (e.idx + 1) := by
        rw [hpdef]
        unfold geth
        rw [List.getD_eq_getElem _ default hidx]
        exact List.drop_eq_getElem_cons hidx
      have hout' : PostsSorted (out ++ [p]) := by
        unfold PostsSorted
        rw [List.pairwise_append]
        refine ⟨hout, List.pairwise_singleton _ _, ?_⟩
        intro a ha b hb
        have hbp : b = p := List.mem_singleton.mp hb
        subst hbp
        exact hbound a ha e hmem p (by rw [hdrop]; exact List.mem_cons_self _ _)
      have hples : ∀ f ∈ h, ∀ q ∈ f.src.drop f.idx, p.id ≤ q.id := by
        intro f hf q hq
        obtain ⟨hfidx, hfval, hfsorted⟩ := hcur f hf
        have h1le : p.id ≤ (geth f.src f.idx).id := by
          rw [hpid, ← hfval]
          have := hrootmin f hf
          unfold mergeKey at this
          exact_mod_cast this
        have hfdrop : f.src.drop f.idx = geth f.src f.idx :: f.src.drop (f.idx + 1) := by
          unfold geth
          rw [List.getD_eq_getElem _ default hfidx]
          exact List.drop_eq_getElem_cons hfidx
        rw [hfdrop] at hq
        rcases List.mem_cons.mp hq with hq | hq
        · rw [hq]; exact h1le
        · have hqle : (geth f.src f.idx).id ≤ q.id := by
            have hpw := hfsorted
            unfold PostsSorted at hpw
            have h2 : (f.src.drop f.idx).Pairwise (fun a b => a.id ≤ b.id) :=
              hpw.drop
            rw [hfdrop] at h2
            exact (List.pairwise_cons.mp h2).1 q hq
          exact le_trans h1le hqle
      have hbound' : ∀ a ∈ out ++ [p], ∀ f ∈ h1, ∀ q ∈ f.src.drop f.idx, a.id ≤ q.id := by
        intro a ha f hf q hq
        have hfh : f ∈ h := hpperm.subset (List.mem_cons_of_mem _ hf)
        rcases List.mem_append.mp ha with ha | ha
        · exact hbound a ha f hfh q hq
        · have hap : a = p := List.mem_singleton.mp ha
          subst hap
          exact hples f hfh q hq
      have hcur1 : ∀ f ∈ h1, f.idx < f.src.length ∧
          f.value = (geth f.src f.idx).id ∧ PostsSorted f.src := by
        intro f hf
        exact hcur f (hpperm.subset (List.mem_cons_of_mem _ hf))
      have hremcons : remPosts (e :: h1) = e.src.drop e.idx ++ remPosts h1 := by
        unfold remPosts
        rw [List.map_cons, List.flatten_cons]
      have hremperm : (remPosts h).Perm
          (p :: (e.src.drop (e.idx + 1) ++ remPosts h1)) := by
        have h2 : (remPosts h).Perm (remPosts (e :: h1)) := remPosts_perm hpperm.symm
        rw [hremcons, hdrop, List.cons_append] at h2
        exact h2
      have hcount : remCount h = (e.src.length - e.idx) + remCount h1 := by
        have h2 : remCount h = remCount (e :: h1) := remCount_perm hpperm.symm
        rw [h2]
        unfold remCount
        rw [List.map_cons, List.sum_cons]
      have hheap1 : HeapN mergeKey h1 h1.length := by
        rw [hplen]
        exact hpheap
      by_cases hlt : e.idx + 1 < e.src.length
      · rw [if_pos hlt]
        set e' : MergeElem := ⟨e.src, e.idx + 1, (geth e.src (e.idx + 1)).id⟩
          with he'def
        obtain ⟨hpushperm, hpushlen, hpushheap⟩ :=
          heapPushGo_ok mergeKey h1 e' hheap1
        have hheap2 : HeapN mergeKey (heapPushGo mergeKey h1 e')
            (heapPushGo mergeKey h1 e').length := by
          rw [hpushlen]
          exact hpushheap
        have hcur2 : ∀ f ∈ heapPushGo mergeKey h1 e', f.idx < f.src.length ∧
            f.value = (geth f.src f.idx).id ∧ PostsSorted f.src := by
          intro f hf
          rcases List.mem_cons.mp (hpushperm.subset hf) with hfe | hfh
          · subst hfe
            exact ⟨hlt, rfl, hsorted⟩
          · exact hcur1 f hfh
        have hbound2 : ∀ a ∈ out ++ [p], ∀ f ∈ heapPushGo mergeKey h1 e',
            ∀ q ∈ f.src.drop f.idx, a.id ≤ q.id := by
          intro a ha f hf q hq
          rcases List.mem_cons.mp (hpushperm.subset hf) with hfe | hfh
          · subst hfe
            have hqin : q ∈ e.src.drop e.idx := by
              rw [hdrop]
              exact List.mem_cons_of_mem _ hq
            rcases List.mem_append.mp ha with ha | ha
            · exact hbound a ha e hmem q hqin
            · have hap : a = p := List.mem_singleton.mp ha
              subst hap
              exact hples e hmem q hqin
          · exact hbound' a ha f hfh q hq
        have hcount2 : remCount (heapPushGo mergeKey h1 e') < fuel := by
          have h2 : remCount (heapPushGo mergeKey h1 e') = remCount (e' :: h1) :=
            remCount_perm hpushperm
          have h3 : remCount (e' :: h1) = (e.src.length - (e.idx + 1)) + remCount h1 := by
            unfold remCount
            rw [List.map_cons, List.sum_cons, he'def]
          omega
        obtain ⟨res, hres, hresperm, hressorted⟩ :=
          ih (heapPushGo mergeKey h1 e') (out ++ [p]) hcount2 hheap2 hcur2
            hout' hbound2
        refine ⟨res, hres, ?_, hressorted⟩
        have hrp : (remPosts (heapPushGo mergeKey h1 e')).Perm
            (e.src.drop (e.idx + 1) ++ remPosts h1) := by
          have h2 := remPosts_perm hpushperm
          have h3 : remPosts (e' :: h1) = e.src.drop (e.idx + 1) ++ remPosts h1 := by
            unfold remPosts
            rw [List.map_cons, List.flatten_cons]
          rw [h3] at h2
          exact h2
        have hstep : ((out ++ [p]) ++ remPosts (heapPushGo mergeKey h1 e')).Perm
            (out ++ remPosts h) := by
          have h4 : ((out ++ [p]) ++ remPosts (heapPushGo mergeKey h1 e')).Perm
              ((out ++ [p]) ++ (e.src.drop (e.idx + 1) ++ remPosts h1)) :=
            hrp.append_left _
          have h5 : (out ++ [p]) ++ (e.src.drop (e.idx + 1) ++ remPosts h1)
              = out ++ (p :: (e.src.drop (e.idx + 1) ++ remPosts h1)) := by
            rw [List.append_assoc]
            rfl
          rw [h5] at h4
          exact h4.trans (hremperm.symm.append_left out)
        exact hresperm.trans hstep
      · rw [if_neg hlt]
        have hidx1 : e.idx < e.src.length := (hcur e hmem).1
        have hdropnil : e.src.drop (e.idx + 1) = [] :=
          List.drop_eq_nil_of_le (by omega)
        have hcount1 : remCount h1 < fuel := by omega
        obtain ⟨res, hres, hresperm, hressorted⟩ :=
          ih h1 (out ++ [p]) hcount1 hheap1 hcur1 hout' hbound'
        refine ⟨res, hres, ?_, hressorted⟩
        have hrem2 : (remPosts h).Perm (p :: remPosts h1) := by
          have h7 := hremperm
          rw [hdropnil] at h7
          simpa using h7
        have hstep : ((out ++ [p]) ++ remPosts h1).Perm (out ++ remPosts h) := by
          have h5 : (out ++ [p]) ++ remPosts h1 = out ++ (p :: remPosts h1) := by
            rw [List.append_assoc]
            rfl
          rw [h5]
          exact hrem2.symm.append_left out
        exact hresperm.trans hstep

/-- The initial pushes of `merge` succeed on non-empty arrays and leave every
cursor at index 0 caching the head id. -/
theorem mergeInit_ok (posts : List (List IPost)) (hne : ∀ p ∈ posts, p ≠ []) :
    ∃ h0, mergeInit posts = some h0 ∧
      h0.map MergeElem.src = posts ∧
      ∀ e ∈ h0, e.idx = 0 ∧ e.value = (geth e.src e.idx).id := by
  induction posts with
  | nil => exact ⟨[], rfl, rfl, by simp⟩
  | cons p rest ih =>
    obtain ⟨h0, hh0, hmap, hprops⟩ := ih (fun q hq => hne q (List.mem_cons_of_mem _ hq))
    have hp := hne p (List.mem_cons_self _ _)
    cases p with
    | nil => exact absurd rfl hp
    | cons q tl =>
      refine ⟨⟨q :: tl, 0, q.id⟩ :: h0, ?_, ?_, ?_⟩
      · unfold mergeInit
        rw [hh0]
        rfl
      · simp [hmap]
      · intro e he
        rcases List.mem_cons.mp he with he | he
        · rw [he]
          exact ⟨rfl, rfl⟩
        · exact hprops e he

/-- `merge` on non-empty id-sorted arrays returns an id-sorted permutation of
their concatenation. -/
theorem merge_ok (results : List IPost) (posts : List (List IPost))
    (hpost : ∀ p ∈ posts, p ≠ [] ∧ PostsSorted p) :
    ∃ res, merge results posts = some res ∧
      res.Perm posts.flatten ∧ PostsSorted res := by
  unfold merge
  by_cases h1 : posts.length = 1
  · rw [if_pos h1]
    obtain ⟨p, hp⟩ := List.length_eq_one.mp h1
    subst hp
    refine ⟨p, rfl, ?_, (hpost p (List.mem_cons_self _ _)).2⟩
    simp
  · rw [if_neg h1]
    obtain ⟨h0, hh0, hmap, hprops⟩ := mergeInit_ok posts (fun p hp => (hpost p hp).1)
    rw [hh0]
    obtain ⟨hiperm, hilen, hiheap⟩ := heapInit_ok mergeKey h0
    have hheap : HeapN mergeKey (heapInit mergeKey h0) (heapInit mergeKey h0).length := by
      rw [hilen]
      exact hiheap
    have hsrcmem : ∀ e ∈ h0, e.src ∈ posts := by
      intro e he
      rw [← hmap]
      exact List.mem_map_of_mem _ he
    have hcur : ∀ e ∈ heapInit mergeKey h0, e.idx < e.src.length ∧
        e.value = (geth e.src e.idx).id ∧ PostsSorted e.src := by
      intro e he
      have heh0 : e ∈ h0 := hiperm.subset he
      obtain ⟨hidx, hval⟩ := hprops e heh0
      obtain ⟨hnee, hsort⟩ := hpost e.src (hsrcmem e heh0)
      refine ⟨?_, hval, hsort⟩
      rw [hidx]
      exact List.length_pos.mpr hnee
    have hfuel : remCount (heapInit mergeKey h0) < remCount h0 + 1 := by
      rw [remCount_perm hiperm]
      omega
    have hout0 : PostsSorted (results.take 0) := by
      rw [List.take_zero]
      exact List.Pairwise.nil
    obtain ⟨res, hres, hresperm, hressorted⟩ :=
      mergeLoop_ok (remCount h0 + 1) (heapInit mergeKey h0) (results.take 0)
        hfuel hheap hcur hout0 (by simp)
    refine ⟨res, hres, ?_, hressorted⟩
    have hmaps : h0.map (fun e => e.src.drop e.idx) = h0.map MergeElem.src :=
      List.map_congr_left (fun e he => by rw [(hprops e he).1, List.drop_zero])
    have hrem0 : remPosts h0 = posts.flatten := by
      unfold remPosts
      rw [hmaps, hmap]
    have hrp : (remPosts (heapInit mergeKey h0)).Perm posts.flatten := by
      have h2 := remPosts_perm hiperm
      rw [hrem0] at h2
      exact h2
    have h3 : res.Perm (remPosts (heapInit mergeKey h0)) := by
      simpa using hresperm
    exact h3.trans hrp

def s1a : List IPost := [⟨0, 0, 0⟩, ⟨0, 0, 0⟩, ⟨1, 0, 0⟩, ⟨5, 0, 0⟩, ⟨7, 0, 0⟩]

def s1b : List IPost :=
  [⟨2, 0, 0⟩, ⟨4, 0, 0⟩, ⟨6, 0, 0⟩, ⟨7, 0, 0⟩, ⟨8, 0, 0⟩, ⟨9, 0, 0⟩]

def s1c : List IPost := [⟨3, 0, 0⟩, ⟨5, 0, 0⟩, ⟨7, 0, 0⟩, ⟨10, 0, 0⟩]

/-- C4: k-way merge correctness.  For every list of non-empty posting arrays
each sorted by ascending doc id, `merge` succeeds and returns a doc-id-sorted
permutation of the concatenation of the inputs (duplicates preserved); in
particular, on inputs with id sequences [0,0,1,5,7], [2,4,6,7,8,9] and
[3,5,7,10] the output id sequence is [0,0,1,2,3,4,5,5,6,7,7,7,8,9,10]. -/
theorem c4_kway_merge :
    (∀ (results : List IPost) (posts : List (List IPost)),
      (∀ p ∈ posts, p ≠ [] ∧ PostsSorted p) →
      ∃ res, merge results posts = some res ∧
        res.Perm posts.flatten ∧ PostsSorted res) ∧
    (merge [] [s1a, s1b, s1c]).map (fun l => l.map IPost.id) =
      some [0, 0, 1, 2, 3, 4, 5, 5, 6, 7, 7, 7, 8, 9, 10] :=
  ⟨merge_ok, by decide⟩

/-- Witness for C4: the general statement applied to the S1 inputs. -/
theorem c4_kway_merge_witness :
    ∃ res, merge [⟨99, 0, 0⟩] [s1a, s1b, s1c] = some res ∧
      res.Perm ([s1a, s1b, s1c] : List (List IPost)).flatten ∧ PostsSorted res :=
  c4_kway_merge.1 [⟨99, 0, 0⟩] [s1a, s1b, s1c] (by unfold PostsSorted; decide)

/-! ## results.go: completions -/

/-- results.go `completion`: a word index and its hit count. -/
structure GoComp where
  word : Nat
  hits : Int
deriving DecidableEq

instance : Inhabited GoComp := ⟨⟨0, 0⟩⟩

/-- `byHits.Less` (results.go): hits descending, then word ascending. -/
def byHitsLess (a b : GoComp) : Bool :=
  if a.hits ≠ b.hits then decide (b.hits < a.hits) else decide (a.word < b.word)

/-- `compHeap.Less` compares hit counts only. -/
def compKey (c : GoComp) : Int := c.hits

/-- The selection loop of results.go `TopCompletions`: push while the heap has
fewer than `k` elements, otherwise evict the minimum-hits completion whenever
the incoming one has strictly more hits.  `none` models the `Peek` call
indexing into an empty heap. -/
def topLoop (k : Int) (h : List GoComp) : List GoComp → Option (List GoComp)
  | [] => some h
  | c :: rest =>
    if (h.length : Int) < k then topLoop k (heapPushGo compKey h c) rest
    else if h.length = 0 then none
    else if (geth h 0).hits < c.hits then
      topLoop k (heapPushGo compKey (heapPopGo compKey h).2 c) rest
    else topLoop k h rest

/-- results.go `Completions()`: copy the completions and `sort.Sort` them with
`byHits`; the relation admits every outcome of the unstable sort. -/
def CompletionsRel (l out : List GoComp) : Prop := GoSortOutcome byHitsLess l out

/-- results.go `TopCompletions(k)`: `k = 0` returns an empty iterator;
otherwise the heap selection loop runs and the heap slice is sorted with
`byHits`. -/
def TopCompletionsRel (k : Int) (l out : List GoComp) : Prop :=
  if k = 0 then out = []
  else ∃ hfin, topLoop k [] l = some hfin ∧ GoSortOutcome byHitsLess hfin out

/-- The sequence yielded by a `Completions` iterator over an array: `Next`
stops past the end or at the first zero hit count. -/
def yieldComps (l : List GoComp) : List GoComp :=
  l.takeWhile (fun c => c.hits != 0)

theorem byHitsLess_asymm : ∀ a b : GoComp,
    byHitsLess a b = true → byHitsLess b a = false := by
  intro a b
  unfold byHitsLess
  by_cases h : a.hits = b.hits
  · rw [if_neg (not_not_intro h), if_neg (not_not_intro h.symm)]
    simp only [decide_eq_true_eq, decide_eq_false_iff_not]
    omega
  · rw [if_pos h, if_pos (fun hh => h hh.symm)]
    simp only [decide_eq_true_eq, decide_eq_false_iff_not]
    omega

theorem byHitsLess_negtrans : ∀ a b c : GoComp,
    byHitsLess b a = false → byHitsLess c b = false → byHitsLess c a = false := by
  intro a b c h1 h2
  unfold byHitsLess at h1 h2 ⊢
  split_ifs at h1 h2 ⊢ <;>
    simp only [decide_eq_false_iff_not] at h1 h2 ⊢ <;>
    omega

theorem byHitsLess_false_antisymm : ∀ a b : GoComp,
    byHitsLess a b = false → byHitsLess b a = false → a = b := by
  intro a b h1 h2
  unfold byHitsLess at h1 h2
  have hh : a.hits = b.hits ∧ a.word = b.word := by
    split_ifs at h1 h2 <;>
      simp only [decide_eq_false_iff_not] at h1 h2 <;>
      constructor <;> omega
  cases a
  cases b
  simp_all

theorem byHitsLess_of_ne : ∀ a b : GoComp, a ≠ b →
    byHitsLess b a = false → byHitsLess a b = true := by
  intro a b hne h1
  rcases Bool.eq_false_or_eq_true (byHitsLess a b) with h2 | h2
  · exact h2
  · exact absurd (byHitsLess_false_antisymm a b h2 h1) hne

instance : IsAntisymm GoComp (fun a b => byHitsLess b a = false) :=
  ⟨fun a b h1 h2 => byHitsLess_false_antisymm a b h2 h1⟩

/-- `byHits` is a total order on (word, hits) pairs, so the unstable sort has
a unique outcome: the insertion-sort canonical form. -/
theorem goSortOutcome_byHits_unique {l out : List GoComp}
    (h : GoSortOutcome byHitsLess l out) : out = goSortExe byHitsLess l := by
  have hexe := goSortExe_outcome byHitsLess byHitsLess_asymm byHitsLess_negtrans l
  have hs1 : out.Pairwise (fun a b => byHitsLess b a = false) := h.2
  have hs2 : (goSortExe byHitsLess l).Pairwise
      (fun a b => byHitsLess b a = false) := hexe.2
  exact List.eq_of_perm_of_sorted (h.1.trans hexe.1.symm) hs1 hs2

theorem pairwise_ne_hits {l : List GoComp}
    (h : l.Pairwise (fun a b => a.hits ≠ b.hits)) :
    ∀ a ∈ l, ∀ b ∈ l, a ≠ b → a.hits ≠ b.hits := by
  induction l with
  | nil => simp
  | cons x xs ih =>
    rcases List.pairwise_cons.mp h with ⟨hx, hxs⟩
    intro a ha b hb hne
    rcases List.mem_cons.mp ha with ha2 | ha2
    · subst ha2
      rcases List.mem_cons.mp hb with hb2 | hb2
      · exact absurd hb2.symm hne
      · exact hx b hb2
    · rcases List.mem_cons.mp hb with hb2 | hb2
      · rw [hb2]
        exact fun he => hx a ha2 he.symm
      · exact ih hxs a ha2 b hb2 hne

theorem heapN_root_le {α : Type} [Inhabited α] [DecidableEq α] (key : α → Int) (l : List α)
    (hl : HeapN key l l.length) : ∀ y ∈ l, key (geth l 0) ≤ key y := by
  intro y hy
  obtain ⟨k, hk, hyk⟩ := List.getElem_of_mem hy
  have h := heapFromN_root_min key l l.length hl k hk
  have hgk : geth l k = y := by
    unfold geth
    rw [List.getD_eq_getElem _ default hk, hyk]
  rw [← hgk]
  exact h

/-- Invariant of the `TopCompletions` selection loop: when all hit counts are
pairwise distinct, the heap always holds the `min k (processed)` completions
with the largest hit counts, every completion already dropped being strictly
smaller than everything retained. -/
theorem topLoop_ok (k : Int) (K : Nat) (hKk : k = (K : Int)) (hK1 : 1 ≤ K) :
    ∀ (rest proc h : List GoComp),
    (proc ++ rest).Pairwise (fun a b => a.hits ≠ b.hits) →
    HeapN compKey h h.length →
    h.Subperm proc →
    h.length = min K proc.length →
    (∀ x ∈ proc, x ∉ h → ∀ y ∈ h, x.hits < y.hits) →
    ∃ hfin, topLoop k h rest = some hfin ∧
      hfin.Subperm (proc ++ rest) ∧
      hfin.length = min K (proc ++ rest).length ∧
      (∀ x ∈ proc ++ rest, x ∉ hfin → ∀ y ∈ hfin, x.hits < y.hits) := by
  intro rest
  induction rest with
  | nil =>
    intro proc h _ _ hsub hlen hbig
    refine ⟨h, rfl, ?_, ?_, ?_⟩
    · simpa using hsub
    · simpa using hlen
    · simpa using hbig
  | cons c rest ih =>
    intro proc h hdist hheap hsub hlen hbig
    have hassoc : proc ++ c :: rest = (proc ++ [c]) ++ rest := by simp
    have hdist' : ((proc ++ [c]) ++ rest).Pairwise (fun a b => a.hits ≠ b.hits) := by
      rw [← hassoc]
      exact hdist
    rw [hassoc]
    unfold topLoop
    by_cases hlt : ((h.length : Int) < k)
    · rw [if_pos hlt]
      have hlnat : h.length < K := by
        rw [hKk] at hlt
        exact_mod_cast hlt
      have hproclen : proc.length = h.length := by omega
      have hpermh : h.Perm proc := hsub.perm_of_length_le (by omega)
      obtain ⟨hpperm, hplen, hpheap⟩ := heapPushGo_ok compKey h c hheap
      set h2 := heapPushGo compKey h c with h2def
      have hheap2 : HeapN compKey h2 h2.length := by
        rw [hplen]
        exact hpheap
      have hsub2 : h2.Subperm (proc ++ [c]) := by
        have s1 : h2.Subperm (c :: h) := hpperm.subperm
        have s2 : (c :: h).Subperm (c :: proc) := (List.subperm_cons c).mpr hsub
        exact (s1.trans s2).trans (List.perm_append_singleton c proc).symm.subperm
      have hlen2 : h2.length = min K (proc ++ [c]).length := by
        rw [hplen]
        simp only [List.length_append, List.length_cons, List.length_nil]
        omega
      have hbig2 : ∀ x ∈ proc ++ [c], x ∉ h2 → ∀ y ∈ h2, x.hits < y.hits := by
        intro x hx hxn y _
        exfalso
        apply hxn
        rcases List.mem_append.mp hx with hx | hx
        · have hxh : x ∈ h := hpermh.symm.subset hx
          exact hpperm.mem_iff.mpr (List.mem_cons_of_mem _ hxh)
        · have hxc : x = c := List.mem_singleton.mp hx
          rw [hxc]
          exact hpperm.mem_iff.mpr (List.mem_cons_self _ _)
      exact ih (proc ++ [c]) h2 hdist' hheap2 hsub2 hlen2 hbig2
    · rw [if_neg hlt]
      have hKle : K ≤ h.length := by
        rw [hKk] at hlt
        have h2 := Int.not_lt.mp hlt
        exact_mod_cast h2
      have hhlen : h.length = K := by omega
      have hprocK : K ≤ proc.length := by omega
      have hne0 : ¬ h.length = 0 := by omega
      rw [if_neg hne0]
      have hne : h ≠ [] := fun hn => hne0 (by rw [hn]; rfl)
      set r0 := geth h 0 with hr0
      have hr0mem : r0 ∈ h := by
        have h0lt : 0 < h.length := by omega
        rw [hr0]
        unfold geth
        rw [List.getD_eq_getElem _ default h0lt]
        exact List.getElem_mem _
      have hrootmin : ∀ y ∈ h, r0.hits ≤ y.hits := by
        intro y hy
        exact heapN_root_le compKey h hheap y hy
      have hr0p : r0 ∈ proc := hsub.subset hr0mem
      by_cases hcond : r0.hits < c.hits
      · rw [if_pos hcond]
        obtain ⟨hv, hpp, hplen1, hpheap1⟩ := heapPopGo_ok compKey h hne hheap
        set h1 := (heapPopGo compKey h).2 with h1def
        have hheap1 : HeapN compKey h1 h1.length := by
          rw [hplen1]
          exact hpheap1
        obtain ⟨hpushperm, hpushlen, hpushheap⟩ := heapPushGo_ok compKey h1 c hheap1
        set h2 := heapPushGo compKey h1 c with h2def
        have hheap2 : HeapN compKey h2 h2.length := by
          rw [hpushlen]
          exact hpushheap
        have hpermh : (r0 :: h1).Perm h := by
          rw [hr0, ← hv]
          exact hpp
        have hsub1 : h1.Subperm proc :=
          ((List.sublist_cons_self r0 h1).subperm.trans hpermh.subperm).trans hsub
        have hsub2 : h2.Subperm (proc ++ [c]) :=
          (hpushperm.subperm.trans ((List.subperm_cons c).mpr hsub1)).trans
            (List.perm_append_singleton c proc).symm.subperm
        have hlen2 : h2.length = min K (proc ++ [c]).length := by
          rw [hpushlen, hplen1]
          simp only [List.length_append, List.length_cons, List.length_nil]
          omega
        have hbig2 : ∀ x ∈ proc ++ [c], x ∉ h2 → ∀ y ∈ h2, x.hits < y.hits := by
          intro x hx hxn y hy
          have hxnc : x ≠ c := by
            intro he
            exact hxn (by rw [he]; exact hpushperm.mem_iff.mpr (List.mem_cons_self _ _))
          have hxp : x ∈ proc := by
            rcases List.mem_append.mp hx with hx | hx
            · exact hx
            · exact absurd (List.mem_singleton.mp hx) hxnc
          have hxnh1 : x ∉ h1 := fun hxh1 =>
            hxn (hpushperm.mem_iff.mpr (List.mem_cons_of_mem _ hxh1))
          have hy2 : y = c ∨ y ∈ h1 := List.mem_cons.mp (hpushperm.subset hy)
          by_cases hxh : x ∈ h
          · have hxr0 : x = r0 := by
              rcases List.mem_cons.mp (hpermh.symm.subset hxh) with h' | h'
              · exact h'
              · exact absurd h' hxnh1
            rcases hy2 with hy2 | hy2
            · rw [hy2, hxr0]
              exact hcond
            · have hyh : y ∈ h := hpermh.subset (List.mem_cons_of_mem _ hy2)
              have hle : x.hits ≤ y.hits := by
                rw [hxr0]
                exact hrootmin y hyh
              have hxy : x ≠ y := fun he => hxn (he ▸ hy)
              have hyp : y ∈ proc := hsub.subset hyh
              have hhne : x.hits ≠ y.hits :=
                pairwise_ne_hits hdist x (List.mem_append.mpr (Or.inl hxp)) y
                  (List.mem_append.mpr (Or.inl hyp)) hxy
              exact lt_of_le_of_ne hle hhne
          · have hbx : ∀ z ∈ h, x.hits < z.hits := hbig x hxp hxh
            rcases hy2 with hy2 | hy2
            · rw [hy2]
              exact lt_trans (hbx r0 hr0mem) hcond
            · exact hbx y (hpermh.subset (List.mem_cons_of_mem _ hy2))
        exact ih (proc ++ [c]) h2 hdist' hheap2 hsub2 hlen2 hbig2
      · rw [if_neg hcond]
        have hsub' : h.Subperm (proc ++ [c]) :=
          hsub.trans (List.sublist_append_left proc [c]).subperm
        have hlen' : h.length = min K (proc ++ [c]).length := by
          simp only [List.length_append, List.length_cons, List.length_nil]
          omega
        have hbig' : ∀ x ∈ proc ++ [c], x ∉ h → ∀ y ∈ h, x.hits < y.hits := by
          intro x hx hxn y hy
          rcases List.mem_append.mp hx with hx | hx
          · exact hbig x hx hxn y hy
          · have hxc : x = c := List.mem_singleton.mp hx
            have hner0 : x ≠ r0 := fun he => hxn (he ▸ hr0mem)
            have hhne : x.hits ≠ r0.hits :=
              pairwise_ne_hits hdist x
                (by rw [hxc]; exact List.mem_append.mpr (Or.inr (List.mem_cons_self _ _)))
                r0 (List.mem_append.mpr (Or.inl hr0p)) hner0
            have hle : x.hits ≤ r0.hits := by
              rw [hxc]
              exact le_of_not_lt hcond
            exact lt_of_lt_of_le (lt_of_le_of_ne hle hhne) (hrootmin y hy)
        exact ih (proc ++ [c]) h hdist' hheap hsub' hlen' hbig'

theorem byHitsLess_false_hits_le : ∀ a b : GoComp,
    byHitsLess a b = false → a.hits ≤ b.hits := by
  intro a b h
  unfold byHitsLess at h
  split_ifs at h <;> simp only [decide_eq_false_iff_not] at h <;> omega

/-- With pairwise distinct hit counts the selection loop succeeds and its heap
holds, up to the final sort, exactly the first `k` entries of the fully sorted
completion list. -/
theorem topLoop_topk (k : Int) (K : Nat) (hKk : k = (K : Int)) (hK1 : 1 ≤ K)
    (l : List GoComp) (hdist : l.Pairwise (fun a b => a.hits ≠ b.hits)) :
    ∃ hfin, topLoop k [] l = some hfin ∧
      goSortExe byHitsLess hfin = (goSortExe byHitsLess l).take K := by
  have hinit : HeapN compKey ([] : List GoComp) ([] : List GoComp).length := by
    intro j hj1 hj2 _
    exact absurd hj2 (by rw [List.length_nil]; omega)
  obtain ⟨hfin, hrun, hfsub, hflen, hfbig⟩ :=
    topLoop_ok k K hKk hK1 l [] [] (by simpa using hdist) hinit
      (List.Subperm.refl _) (by simp) (by simp)
  refine ⟨hfin, hrun, ?_⟩
  have hfsub' : hfin.Subperm l := by simpa using hfsub
  have hflen' : hfin.length = min K l.length := by simpa using hflen
  have hfbig' : ∀ x ∈ l, x ∉ hfin → ∀ y ∈ hfin, x.hits < y.hits := by
    simpa using hfbig
  have hexe := goSortExe_outcome byHitsLess byHitsLess_asymm byHitsLess_negtrans l
  set s := goSortExe byHitsLess l with hsdef
  have hsperm : s.Perm l := hexe.1
  have hssorted : s.Pairwise (fun a b => byHitsLess b a = false) := hexe.2
  have hnodupl : l.Nodup := hdist.imp (fun hab heq => hab (by rw [heq]))
  have hnodups : s.Nodup := (hsperm.nodup_iff).mpr hnodupl
  have hnodupf : hfin.Nodup := by
    obtain ⟨t, htp, hts⟩ := hfsub'
    exact (htp.nodup_iff).mp (hts.nodup hnodupl)
  have hfsub' : hfin.Subperm l := by simpa using hfsub
  have hperm : (s.take K).Perm hfin := by
    rcases le_or_lt l.length K with hcase | hcase
    · have hfperm : hfin.Perm l := hfsub'.perm_of_length_le (by omega)
      have hslen : s.length = l.length := hsperm.length_eq
      have hta : s.take K = s := List.take_of_length_le (by omega)
      rw [hta]
      exact hsperm.trans hfperm.symm
    · have hfl : hfin.length = K := by omega
      have hslen : s.length = l.length := hsperm.length_eq
      have htlen : (s.take K).length = K := by
        rw [List.length_take]
        omega
      have hsubset : s.take K ⊆ hfin := by
        intro u hu
        by_contra hun
        have hul : u ∈ l := hsperm.subset (List.take_subset _ _ hu)
        have hbigu : ∀ y ∈ hfin, u.hits < y.hits := hfbig' u hul hun
        set p : GoComp → Bool := fun y => decide (u.hits < y.hits) with hpdef
        have hfinsub : hfin ⊆ s.filter p := by
          intro y hy
          rw [List.mem_filter]
          refine ⟨hsperm.symm.subset (hfsub'.subset hy), ?_⟩
          rw [hpdef]
          simpa using hbigu y hy
        have hlenle : hfin.length ≤ (s.filter p).length :=
          (hnodupf.subperm hfinsub).length_le
        obtain ⟨j, hj, hju⟩ := List.getElem_of_mem hu
        have hjK : j < K := by
          rw [htlen] at hj
          exact hj
        have hjs : j < s.length := by omega
        have hju' : s[j] = u := by
          rw [← hju]
          exact (List.getElem_take _).symm
        have hsget := List.pairwise_iff_getElem.mp hssorted
        have hfail : ∀ i (hi : i < s.length), j ≤ i → s[i].hits ≤ u.hits := by
          intro i hi hji
          rcases Nat.eq_or_lt_of_le hji with he | hlt2
          · subst he
            exact le_of_eq (congrArg GoComp.hits hju')
          · have hr := hsget j i hjs hi hlt2
            have h2 := byHitsLess_false_hits_le _ _ hr
            rw [hju'] at h2
            exact h2
        have hsplit : s = s.take j ++ s.drop j := (List.take_append_drop j s).symm
        have hdropnil : (s.drop j).filter p = [] := by
          rw [List.filter_eq_nil_iff]
          intro y hy
          obtain ⟨i, hi, hyi⟩ := List.getElem_of_mem hy
          have hilen : i < s.length - j := by
            have h5 := hi
            rw [List.length_drop] at h5
            exact h5
          have hji : j + i < s.length := by omega
          have hdg : (s.drop j)[i] = s[j + i] := List.getElem_drop s
          have hle := hfail (j + i) hji (by omega)
          rw [hpdef]
          simp only [decide_eq_true_eq]
          rw [← hyi, hdg]
          omega
        have hstep1 : s.filter p = (s.take j).filter p := by
          conv_lhs => rw [hsplit]
          rw [List.filter_append, hdropnil, List.append_nil]
        have hcount : (s.filter p).length ≤ j := by
          rw [hstep1]
          have h3 : ((s.take j).filter p).length ≤ (s.take j).length :=
            List.length_filter_le _ _
          have h4 : (s.take j).length = j := by
            rw [List.length_take]
            omega
          omega
        omega
      have hnodupt : (s.take K).Nodup := (List.take_sublist K s).nodup hnodups
      have hsp : (s.take K).Subperm hfin := hnodupt.subperm hsubset
      exact hsp.perm_of_length_le (by omega)
  have hexef := goSortExe_outcome byHitsLess byHitsLess_asymm byHitsLess_negtrans hfin
  have hsorted1 : (goSortExe byHitsLess hfin).Pairwise
      (fun a b => byHitsLess b a = false) := hexef.2
  have hsorted2 : (s.take K).Pairwise (fun a b => byHitsLess b a = false) :=
    hssorted.sublist (List.take_sublist K s)
  exact List.eq_of_perm_of_sorted (hexef.1.trans hperm.symm) hsorted1 hsorted2

theorem takeWhile_take {α : Type} (p : α → Bool) :
    ∀ (l : List α) (n : Nat), (l.take n).takeWhile p = (l.takeWhile p).take n := by
  intro l
  induction l with
  | nil => intro n; simp
  | cons x xs ih =>
    intro n
    cases n with
    | zero => simp
    | succ m =>
      by_cases hp : p x
      · simp only [List.take_succ_cons, List.takeWhile_cons, hp, if_pos]
        rw [ih m]
      · simp [List.take_succ_cons, List.takeWhile_cons, hp]

def c5comps : List GoComp := [⟨1, 2⟩, ⟨2, 2⟩, ⟨3, 5⟩, ⟨4, 2⟩]

/-- Counterexample for C5.  The completions (word 1, 2 hits), (word 2, 2 hits),
(word 3, 5 hits), (word 4, 2 hits) tie on hit count.  `Completions()` sorts
them to words 3, 1, 2, 4, so the 2-prefix is words 3, 1; but the
`TopCompletions(2)` heap keeps word 2 (word 1 is evicted when word 3 arrives)
and yields words 3, 2 — not the 2-prefix, for every outcome of the unstable
sorts. -/
theorem c5_counterexample :
    ∃ hfin, topLoop 2 [] c5comps = some hfin ∧
      ∀ out sall, GoSortOutcome byHitsLess hfin out →
        GoSortOutcome byHitsLess c5comps sall →
        out ≠ sall.take 2 ∧ yieldComps out ≠ (yieldComps sall).take 2 := by
  refine ⟨[⟨2, 2⟩, ⟨3, 5⟩], by decide, ?_⟩
  intro out sall hout hsall
  rw [goSortOutcome_byHits_unique hout, goSortOutcome_byHits_unique hsall]
  constructor
  · decide
  · decide

/-- C5: completion ordering, corrected.  (1) Every `Completions()` outcome is
the unique byHits-sorted permutation of the stored completions (the byHits
order is total and antisymmetric on (word, hits) pairs, so the unstable sort
cannot vary); it is strictly sorted by (hits desc, word asc) whenever the
stored completions are duplicate-free, and so is the yielded sequence.
(2) For k ≥ 1, every `TopCompletions(k)` outcome equals the k-prefix of the
`Completions()` sequence PROVIDED the hit counts are pairwise distinct; under
ties the heap's eviction rule can keep a different word than the k-prefix
(see the counterexample). -/
theorem c5_completion_ordering :
    (∀ (l out : List GoComp), CompletionsRel l out →
       out = goSortExe byHitsLess l ∧ GoSorted byHitsLess out ∧
       (l.Nodup → out.Pairwise (fun a b => byHitsLess a b = true) ∧
         (yieldComps out).Pairwise (fun a b => byHitsLess a b = true))) ∧
    (∀ (k : Int) (l out sall : List GoComp), 1 ≤ k →
       l.Pairwise (fun a b => a.hits ≠ b.hits) →
       TopCompletionsRel k l out → CompletionsRel l sall →
       out = sall.take k.toNat ∧
       yieldComps out = (yieldComps sall).take k.toNat) := by
  constructor
  · intro l out hrel
    refine ⟨goSortOutcome_byHits_unique hrel, hrel.2, ?_⟩
    intro hnd
    have hnod : out.Nodup := (hrel.1.nodup_iff).mpr hnd
    have hp : out.Pairwise (fun a b => byHitsLess b a = false) := hrel.2
    have hstrict : out.Pairwise (fun a b => byHitsLess a b = true) :=
      (hp.and hnod).imp (fun h => byHitsLess_of_ne _ _ h.2 h.1)
    refine ⟨hstrict, ?_⟩
    exact hstrict.sublist (List.takeWhile_sublist _)
  · intro k l out sall hk hdist htop hcomp
    have hKk : k = ((k.toNat : Nat) : Int) := (Int.toNat_of_nonneg (by omega)).symm
    have hK1 : 1 ≤ k.toNat := by omega
    have hkne : ¬ k = 0 := by omega
    unfold TopCompletionsRel at htop
    rw [if_neg hkne] at htop
    obtain ⟨hfin, hrun, hsort⟩ := htop
    obtain ⟨hfin2, hrun2, heq⟩ := topLoop_topk k k.toNat hKk hK1 l hdist
    rw [hrun] at hrun2
    have hfe : hfin2 = hfin := (Option.some.injEq _ _).mp hrun2.symm
    have hout : out = goSortExe byHitsLess hfin := goSortOutcome_byHits_unique hsort
    have hsall : sall = goSortExe byHitsLess l := goSortOutcome_byHits_unique hcomp
    have hmain : out = sall.take k.toNat := by
      rw [hout, hsall, ← hfe, heq]
    refine ⟨hmain, ?_⟩
    rw [hmain]
    unfold yieldComps
    exact takeWhile_take _ sall k.toNat

/-- Witness for C5: distinct hit counts 3, 7, 5 with k = 2; TopCompletions
yields exactly the 2-prefix of Completions. -/
theorem c5_completion_ordering_witness :
    ([⟨2, 7⟩, ⟨3, 5⟩] : List GoComp) =
      ([⟨2, 7⟩, ⟨3, 5⟩, ⟨1, 3⟩] : List GoComp).take (2 : Int).toNat := by
  have htop : TopCompletionsRel 2 [⟨1, 3⟩, ⟨2, 7⟩, ⟨3, 5⟩] [⟨2, 7⟩, ⟨3, 5⟩] := by
    unfold TopCompletionsRel
    rw [if_neg (by omega)]
    exact ⟨[⟨3, 5⟩, ⟨2, 7⟩], by decide, by decide⟩
  have hcomp : CompletionsRel [⟨1, 3⟩, ⟨2, 7⟩, ⟨3, 5⟩] [⟨2, 7⟩, ⟨3, 5⟩, ⟨1, 3⟩] := by
    unfold CompletionsRel
    decide
  exact (c5_completion_ordering.2 2 [⟨1, 3⟩, ⟨2, 7⟩, ⟨3, 5⟩] [⟨2, 7⟩, ⟨3, 5⟩]
      [⟨2, 7⟩, ⟨3, 5⟩, ⟨1, 3⟩] (by omega) (by decide) htop hcomp).1

/-! ## results.go: TopHits and the negative-k edge case -/

/-- `math.MaxUint32`, the dedup sentinel of `Hits` and `TopHits`. -/
def maxU32 : Nat := 4294967295

/-- `postHeap.Less` compares ranks ascending (a minimum heap). -/
def postKey (p : IPost) : Int := (p.rank : Int)

/-- `ranks.Less` (results.go): descending rank. -/
def ranksLess (a b : IPost) : Bool := decide (b.rank < a.rank)

/-- The dedup-and-select loop of results.go `TopHits`: consecutive duplicate
ids are skipped, then the posting is pushed while the heap has fewer than `k`
elements, else it evicts the minimum-rank posting when strictly better.
`none` models the `Peek` call indexing into an empty heap. -/
def topHitsLoop (k : Int) (pid : Nat) (h : List IPost) : List IPost → Option (List IPost)
  | [] => some h
  | p :: rest =>
    if p.id = pid then topHitsLoop k pid h rest
    else
      if (h.length : Int) < k then topHitsLoop k p.id (heapPushGo postKey h p) rest
      else if h.length = 0 then none
      else if (geth h 0).rank < p.rank then
        topHitsLoop k p.id (heapPushGo postKey (heapPopGo postKey h).2 p) rest
      else topHitsLoop k p.id h rest

/-- results.go `TopHits(k)`: `k = 0` returns an empty iterator; otherwise the
selection loop runs (starting from the sentinel pid and an empty heap) and
the surviving heap is sorted by descending rank. -/
def TopHitsRel (k : Int) (results out : List IPost) : Prop :=
  if k = 0 then out = []
  else ∃ hfin, topHitsLoop k maxU32 [] results = some hfin ∧
    GoSortOutcome ranksLess hfin out

/-- For negative `k` the loop panics at the first posting whose id differs
from the sentinel; a run whose postings all carry id `MaxUint32` never reaches
`Peek` and returns the empty heap. -/
theorem topHitsLoop_neg (k : Int) (hk : k < 0) :
    ∀ rest : List IPost,
      topHitsLoop k maxU32 [] rest =
        if ∀ p ∈ rest, p.id = maxU32 then some [] else none := by
  intro rest
  induction rest with
  | nil => simp [topHitsLoop]
  | cons p rest ih =>
    unfold topHitsLoop
    by_cases hp : p.id = maxU32
    · rw [if_pos hp, ih]
      by_cases hall : ∀ q ∈ rest, q.id = maxU32
      · rw [if_pos hall, if_pos ?h1]
        intro q hq
        rcases List.mem_cons.mp hq with h | h
        · rw [h]
          exact hp
        · exact hall q h
      · rw [if_neg hall,
          if_neg (fun hallc => hall (fun q hq => hallc q (List.mem_cons_of_mem _ hq)))]
    · rw [if_neg hp, if_neg (by simp only [List.length_nil, Nat.cast_zero]; omega),
        if_pos (List.length_nil (α := IPost)), if_neg (fun hallc => hp (hallc p (List.mem_cons_self _ _)))]

/-- C10: negative-k edge case, corrected.  For k < 0, `TopHits(k)` panics
(peeks an empty heap) if and only if some posting's id differs from the
`MaxUint32` dedup sentinel; a non-empty Result whose postings all have
id `MaxUint32` escapes the panic because the dedup skip drops every posting
before `Peek` is reached.  k = 0 returns an empty iterator. -/
theorem c10_negative_k :
    (∀ (k : Int) (results : List IPost), k < 0 →
       ((topHitsLoop k maxU32 [] results = none) ↔ ∃ p ∈ results, p.id ≠ maxU32) ∧
       ((∃ out, TopHitsRel k results out) ↔ ∀ p ∈ results, p.id = maxU32)) ∧
    (∀ (results out : List IPost), TopHitsRel 0 results out ↔ out = []) := by
  constructor
  · intro k results hk
    have hloop := topHitsLoop_neg k hk results
    have hkne : ¬ k = 0 := by omega
    constructor
    · constructor
      · intro hnone
        by_contra hno
        rw [if_pos ?hall] at hloop
        · rw [hloop] at hnone
          exact Option.noConfusion hnone
        · intro p hp
          by_contra hpne
          exact hno ⟨p, hp, hpne⟩
      · intro hex
        rw [if_neg ?hnall] at hloop
        · exact hloop
        · intro hall
          obtain ⟨p, hp, hpne⟩ := hex
          exact hpne (hall p hp)
    · constructor
      · intro hex p hp
        obtain ⟨out, hrel⟩ := hex
        unfold TopHitsRel at hrel
        rw [if_neg hkne] at hrel
        obtain ⟨hfin, hrun, _⟩ := hrel
        by_contra hpne
        rw [if_neg (fun hall => hpne (hall p hp))] at hloop
        rw [hloop] at hrun
        exact Option.noConfusion hrun
      · intro hall
        refine ⟨[], ?_⟩
        unfold TopHitsRel
        rw [if_neg hkne]
        refine ⟨[], ?_, by decide⟩
        rw [hloop, if_pos hall]
  · intro results out
    unfold TopHitsRel
    simp

/-- Witness for C10: k = -1 on a posting with id 0 panics; k = 0 on a
non-empty Result is the empty iterator. -/
theorem c10_negative_k_witness :
    (topHitsLoop (-1) maxU32 [] [⟨0, 0, 0⟩] = none) ∧
    (TopHitsRel 0 [⟨5, 5, 5⟩] [] ↔ ([] : List IPost) = []) :=
  ⟨((c10_negative_k.1 (-1) [⟨0, 0, 0⟩] (by omega)).1).mpr
      ⟨⟨0, 0, 0⟩, List.mem_cons_self _ _, by decide⟩,
    c10_negative_k.2 [⟨5, 5, 5⟩] []⟩

/-- Counterexample companion fact recorded for C10: a NON-empty Result whose
single posting carries id `MaxUint32` does not panic for k = -1 — the claim's
"for every Result whose internal results list is non-empty" is too strong. -/
theorem c10_sentinel_escape :
    topHitsLoop (-1) maxU32 [] [⟨maxU32, 0, 0⟩] = some [] ∧
    TopHitsRel (-1) [⟨maxU32, 0, 0⟩] [] := by
  constructor
  · decide
  · unfold TopHitsRel
    rw [if_neg (by omega)]
    exact ⟨[], by decide, by decide⟩

/-! ## hyb.go: getWordRange and Go's sort.Search -/

/-- Go `sort.Search(n, f)`: binary search for the least index where `f` holds
(an invariant boundary for monotone `f`).  Fuel-based; `j - i` fuel always
suffices. -/
def goSearch (fuel : Nat) (f : Nat → Bool) (i j : Nat) : Nat :=
  match fuel with
  | 0 => i
  | fuel + 1 =>
    if i < j then
      if f ((i + j) / 2) then goSearch fuel f i ((i + j) / 2)
      else goSearch fuel f ((i + j) / 2 + 1) j
    else i

theorem goSearch_ok (f : Nat → Bool) (n : Nat)
    (hmono : ∀ a b, a ≤ b → b < n → f a = true → f b = true) :
    ∀ (fuel i j : Nat), i ≤ j → j ≤ n → j - i ≤ fuel →
    i ≤ goSearch fuel f i j ∧ goSearch fuel f i j ≤ j ∧
    (∀ x, i ≤ x → x < goSearch fuel f i j → f x = false) ∧
    (goSearch fuel f i j < j → f (goSearch fuel f i j) = true) := by
  intro fuel
  induction fuel with
  | zero =>
    intro i j hij hjn hfuel
    have hij2 : i = j := by omega
    unfold goSearch
    exact ⟨le_refl _, by omega,
      fun x hx1 hx2 => absurd (lt_of_le_of_lt hx1 hx2) (lt_irrefl _),
      fun h => absurd h (by omega)⟩
  | succ fuel ih =>
    intro i j hij hjn hfuel
    unfold goSearch
    by_cases hlt : i < j
    · rw [if_pos hlt]
      by_cases hf : f ((i + j) / 2) = true
      · rw [if_pos hf]
        obtain ⟨h1, h2, h3, h4⟩ := ih i ((i + j) / 2) (by omega) (by omega) (by omega)
        refine ⟨h1, by omega, h3, ?_⟩
        intro _
        rcases Nat.lt_or_ge (goSearch fuel f i ((i + j) / 2)) ((i + j) / 2) with hc | hc
        · exact h4 hc
        · have he : goSearch fuel f i ((i + j) / 2) = (i + j) / 2 := by omega
          rw [he]
          exact hf
      · rw [if_neg hf]
        obtain ⟨h1, h2, h3, h4⟩ := ih ((i + j) / 2 + 1) j (by omega) hjn (by omega)
        refine ⟨by omega, h2, ?_, h4⟩
        intro x hx1 hx2
        rcases Nat.lt_or_ge x ((i + j) / 2 + 1) with hc | hc
        · by_cases hfx : f x = true
          · exact absurd (hmono x ((i + j) / 2) (by omega) (by omega) hfx) hf
          · exact Bool.eq_false_iff.mpr hfx
        · exact h3 x hc hx2
    · rw [if_neg hlt]
      exact ⟨le_refl _, by omega,
        fun x hx1 hx2 => absurd (lt_of_le_of_lt hx1 hx2) (lt_irrefl _),
        fun h => absurd h (by omega)⟩

/-- Go `sort.SearchStrings(a, x)`: least index `i` with `a[i] >= x`. -/
def searchStrings (words : List GoStr) (q : GoStr) : Nat :=
  goSearch words.length (fun i => ! strLtb (geth words i) q) 0 words.length

theorem geth_mem {α : Type} [Inhabited α] (l : List α) (i : Nat)
    (h : i < l.length) : geth l i ∈ l := by
  unfold geth
  rw [List.getD_eq_getElem _ default h]
  exact List.getElem_mem _

theorem sorted_geth_le {l : List GoStr}
    (hs : l.Pairwise (fun a b => strLeb a b = true)) :
    ∀ x y, x ≤ y → y < l.length → strLtb (geth l y) (geth l x) = false := by
  intro x y hxy hy
  rcases Nat.eq_or_lt_of_le hxy with he | hlt
  · rw [he]
    exact strLtb_irrefl _
  · have hx : x < l.length := by omega
    have h := List.pairwise_iff_getElem.mp hs x y hx hy hlt
    have hgx : geth l x = l[x] := by
      unfold geth
      rw [List.getD_eq_getElem _ default hx]
    have hgy : geth l y = l[y] := by
      unfold geth
      rw [List.getD_eq_getElem _ default hy]
    rw [hgx, hgy]
    unfold strLeb at h
    simpa using h

theorem hasPrefixB_ge : ∀ (q w : GoStr), hasPrefixB w q = true → strLtb w q = false := by
  intro q
  induction q with
  | nil =>
    intro w _
    cases w with
    | nil => rfl
    | cons a as => rfl
  | cons b bs ih =>
    intro w hp
    cases w with
    | nil => simp [hasPrefixB] at hp
    | cons a as =>
      unfold hasPrefixB at hp
      by_cases hab : a = b
      · rw [if_pos hab] at hp
        unfold strLtb
        rw [if_neg (by omega), if_neg (by omega)]
        exact ih as hp
      · rw [if_neg hab] at hp
        exact absurd hp (by simp)

theorem strLtb_le_lt_trans {a b c : GoStr} (hab : strLtb b a = false)
    (hbc : strLtb b c = true) : strLtb a c = true := by
  rcases strLtb_total a b with h | h | h
  · exact strLtb_trans h hbc
  · rw [h]
    exact hbc
  · exact absurd h (by simp [hab])

theorem strLtb_lt_le_trans {a b c : GoStr} (hab : strLtb a b = true)
    (hbc : strLtb c b = false) : strLtb a c = true := by
  rcases strLtb_total b c with h | h | h
  · exact strLtb_trans hab h
  · rw [← h]
    exact hab
  · exact absurd h (by simp [hbc])

theorem prefix_of_between : ∀ (q w z : GoStr), strLtb w q = false →
    strLtb w (q ++ z) = true → hasPrefixB w q = true := by
  intro q
  induction q with
  | nil =>
    intro w z _ _
    cases w with
    | nil => rfl
    | cons a as => rfl
  | cons b bs ih =>
    intro w z hge hlt
    cases w with
    | nil => simp [strLtb] at hge
    | cons a as =>
      rw [List.cons_append] at hlt
      unfold strLtb at hge hlt
      unfold hasPrefixB
      by_cases h1 : a < b
      · rw [if_pos h1] at hge
        exact absurd hge (by simp)
      · rw [if_neg h1] at hge hlt
        by_cases h2 : b < a
        · rw [if_pos h2] at hlt
          exact absurd hlt (by simp)
        · rw [if_neg h2] at hge hlt
          have hab : a = b := by omega
          rw [if_pos hab]
          exact ih as z hge hlt

theorem searchStrings_ok (words : List GoStr) (q : GoStr)
    (hsorted : words.Pairwise (fun a b => strLeb a b = true)) :
    searchStrings words q ≤ words.length ∧
    (∀ x, x < searchStrings words q → strLtb (geth words x) q = true) ∧
    (searchStrings words q < words.length →
      strLtb (geth words (searchStrings words q)) q = false) := by
  have hmono : ∀ a b, a ≤ b → b < words.length →
      (! strLtb (geth words a) q) = true → (! strLtb (geth words b) q) = true := by
    intro a b hab hb hfa
    by_cases hb2 : strLtb (geth words b) q = true
    · have hle := sorted_geth_le hsorted a b hab hb
      have h3 := strLtb_le_lt_trans hle hb2
      simp [h3] at hfa
    · simp [Bool.eq_false_iff.mpr hb2]
  obtain ⟨h1, h2, h3, h4⟩ := goSearch_ok (fun i => ! strLtb (geth words i) q)
    words.length hmono words.length 0 words.length (by omega) (le_refl _) (by omega)
  refine ⟨h2, ?_, ?_⟩
  · intro x hx
    have h5 := h3 x (by omega) hx
    simpa using h5
  · intro hr
    have h5 := h4 hr
    simpa using h5

/-- The UTF-8 bytes of `utf8.MaxRune` (U+10FFFF): f4 8f bf bf. -/
def maxRuneBytes : GoStr := [244, 143, 191, 191]

/-- Go's `uint32(x)` conversion of an `int`: reduction mod 2^32. -/
def u32ofInt (x : Int) : Nat := (x % 4294967296).toNat

theorem u32ofInt_nat (m : Nat) (h : m < 4294967296) : u32ofInt (m : Int) = m := by
  unfold u32ofInt
  rw [Int.emod_eq_of_lt (by exact_mod_cast Nat.zero_le m) (by exact_mod_cast h)]
  simp

/-- hyb.go `getWordRange(query, words, offset)`: binary-search the suffix of
the vocabulary for the first word with prefix `query`, then for the word-id
past the sentinel `query + string(utf8.MaxRune)`; `rend` may underflow to -1
and is truncated by `uint32`. -/
def getWordRange (query : GoStr) (words : List GoStr) (offset : Nat) :
    Option (Nat × Nat) :=
  let words2 := words.drop offset
  let rstart := searchStrings words2 query
  if rstart = words2.length ∨ hasPrefixB (geth words2 rstart) query = false then
    none
  else
    let rend : Int := (rstart : Int) +
      (searchStrings (words2.drop rstart) (query ++ maxRuneBytes) : Int) - 1
    some (u32ofInt ((rstart : Int) + (offset : Int)),
      u32ofInt (rend + (offset : Int)))

/-- C6: word-range lookup, corrected.  For a byte-wise sorted vocabulary,
`getWordRange` returns exactly the inclusive word-id range of the words with
prefix `query` PROVIDED every such word is byte-wise smaller than the
sentinel `query ++ maxRuneBytes`; the claim's "for all byte-string inputs" is
false because a vocabulary word equal to the query extended by U+10FFFF
reaches the sentinel and makes `rend` underflow to -1 (see the
counterexample). -/
theorem c6_word_range_lookup (query : GoStr) (words : List GoStr) (offset : Nat)
    (hsorted : words.Pairwise (fun a b => strLeb a b = true))
    (hsent : ∀ w ∈ words, hasPrefixB w query = true →
      strLtb w (query ++ maxRuneBytes) = true)
    (hlen : words.length < 4294967296) :
    ((∀ i, i < (words.drop offset).length →
        hasPrefixB (geth (words.drop offset) i) query = false) →
      getWordRange query words offset = none) ∧
    (∀ i0, i0 < (words.drop offset).length →
      hasPrefixB (geth (words.drop offset) i0) query = true →
      ∃ w0 w1, getWordRange query words offset = some (w0 + offset, w1 + offset) ∧
        w0 ≤ w1 ∧ w1 < (words.drop offset).length ∧
        (∀ i, i < (words.drop offset).length →
          (hasPrefixB (geth (words.drop offset) i) query = true ↔
            w0 ≤ i ∧ i ≤ w1))) := by
  set W := words.drop offset with hW
  have hWsorted : W.Pairwise (fun a b => strLeb a b = true) :=
    hsorted.sublist (List.drop_sublist _ _)
  have hWmem : ∀ w ∈ W, w ∈ words := fun w hw => (List.drop_subset _ _) hw
  have hWlen : W.length = words.length - offset := by
    rw [hW, List.length_drop]
  obtain ⟨hr1, hr2, hr3⟩ := searchStrings_ok W query hWsorted
  set rstart := searchStrings W query with hrs
  constructor
  · intro hnone
    unfold getWordRange
    dsimp only
    rw [← hW, ← hrs, if_pos ?hguard]
    case hguard =>
      by_cases hcase : rstart = W.length
      · exact Or.inl hcase
      · exact Or.inr (hnone rstart (by omega))
  · intro i0 hi0 hp0
    have hrle : rstart ≤ i0 := by
      by_contra hgt
      have h2 := hr2 i0 (by omega)
      have h3 := hasPrefixB_ge query (geth W i0) hp0
      simp [h2] at h3
    have hrlt : rstart < W.length := by omega
    have hprs : hasPrefixB (geth W rstart) query = true := by
      have hge : strLtb (geth W rstart) query = false := hr3 hrlt
      have hle : strLtb (geth W i0) (geth W rstart) = false :=
        sorted_geth_le hWsorted rstart i0 hrle hi0
      have hlt : strLtb (geth W i0) (query ++ maxRuneBytes) = true :=
        hsent _ (hWmem _ (geth_mem _ _ hi0)) hp0
      have hlt2 : strLtb (geth W rstart) (query ++ maxRuneBytes) = true :=
        strLtb_le_lt_trans hle hlt
      exact prefix_of_between query (geth W rstart) maxRuneBytes hge hlt2
    set S := W.drop rstart with hS
    have hSsorted : S.Pairwise (fun a b => strLeb a b = true) :=
      hWsorted.sublist (List.drop_sublist _ _)
    obtain ⟨hs1, hs2, hs3⟩ := searchStrings_ok S (query ++ maxRuneBytes) hSsorted
    set idx := searchStrings S (query ++ maxRuneBytes) with hidx
    have hSlen : S.length = W.length - rstart := by
      rw [hS, List.length_drop]
    have hSget : ∀ j, j < S.length → geth S j = geth W (rstart + j) := by
      intro j hj
      have hj2 : rstart + j < W.length := by omega
      have hjS : j < (W.drop rstart).length := by
        rw [List.length_drop]
        omega
      unfold geth
      rw [hS]
      rw [List.getD_eq_getElem _ default hjS, List.getD_eq_getElem _ default hj2]
      exact List.getElem_drop W
    have hidx1 : 1 ≤ idx := by
      by_contra h0
      have hidx0 : idx = 0 := by omega
      have hSpos : 0 < S.length := by omega
      have h3 := hs3 (by omega)
      rw [hidx0] at h3
      have hg0 : geth S 0 = geth W rstart := by
        have h5 := hSget 0 (by omega)
        simpa using h5
      rw [hg0] at h3
      have hlt0 : strLtb (geth W rstart) (query ++ maxRuneBytes) = true :=
        hsent _ (hWmem _ (geth_mem _ _ hrlt)) hprs
      simp [hlt0] at h3
    refine ⟨rstart, rstart + idx - 1, ?_, by omega, by omega, ?_⟩
    · unfold getWordRange
      dsimp only
      rw [← hW, ← hrs, if_neg ?hguard2, ← hS, ← hidx]
      case hguard2 =>
        intro hor
        rcases hor with h1 | h2
        · exact absurd h1 (by omega)
        · simp [hprs] at h2
      have e1 : (rstart : Int) + (offset : Int) = ((rstart + offset : Nat) : Int) := by
        omega
      have e2 : (rstart : Int) + (idx : Int) - 1 + (offset : Int) =
          ((rstart + idx - 1 + offset : Nat) : Int) := by
        omega
      rw [e1, e2, u32ofInt_nat _ (by omega), u32ofInt_nat _ (by omega)]
    · intro i hi
      constructor
      · intro hpi
        refine ⟨?_, ?_⟩
        · by_contra hgt
          have h2 := hr2 i (by omega)
          have h3 := hasPrefixB_ge query (geth W i) hpi
          simp [h2] at h3
        · by_contra hgt2
          have hge2 : rstart + idx ≤ i := by omega
          have hidxS : idx < S.length := by omega
          have h3 := hs3 hidxS
          rw [hSget idx hidxS] at h3
          have hle2 : strLtb (geth W i) (geth W (rstart + idx)) = false :=
            sorted_geth_le hWsorted (rstart + idx) i hge2 hi
          have hlt2 : strLtb (geth W i) (query ++ maxRuneBytes) = true :=
            hsent _ (hWmem _ (geth_mem _ _ hi)) hpi
          have h4 := strLtb_le_lt_trans hle2 hlt2
          simp [h4] at h3
      · rintro ⟨hge1, hle1⟩
        have hilt : i - rstart < idx := by omega
        have hiS : i - rstart < S.length := by omega
        have h2 := hs2 (i - rstart) hilt
        rw [hSget (i - rstart) hiS] at h2
        have heq : rstart + (i - rstart) = i := by omega
        rw [heq] at h2
        have hgeq : strLtb (geth W i) query = false := by
          have ha := sorted_geth_le hWsorted rstart i hge1 hi
          have hb := hr3 hrlt
          by_cases hx : strLtb (geth W i) query = true
          · have h5 := strLtb_lt_le_trans hx hb
            simp [h5] at ha
          · exact Bool.eq_false_iff.mpr hx
        exact prefix_of_between query (geth W i) maxRuneBytes hgeq h2

/-- Counterexample for C6: the vocabulary word "a" + U+10FFFF has "a" as a
prefix yet is not byte-wise smaller than the sentinel "a" + U+10FFFF, and
`getWordRange` on that (sorted, 1-word) vocabulary returns the nonsensical
range (0, 4294967295): `rend` underflows to -1 and wraps in `uint32`. -/
theorem c6_counterexample :
    hasPrefixB [97, 244, 143, 191, 191] [97] = true ∧
    strLtb [97, 244, 143, 191, 191] ([97] ++ maxRuneBytes) = false ∧
    ([[97, 244, 143, 191, 191]] : List GoStr).Pairwise
      (fun a b => strLeb a b = true) ∧
    getWordRange [97] [[97, 244, 143, 191, 191]] 0 = some (0, 4294967295) := by
  refine ⟨by decide, by decide, by decide, ?_⟩
  decide

/-- Witness for C6: vocabulary "a", "ab", "b" with query "a" — the range is
exactly words 0 through 1. -/
theorem c6_word_range_lookup_witness :
    ∃ w0 w1,
      getWordRange [97] [[97], [97, 98], [98]] 0 = some (w0 + 0, w1 + 0) ∧
      w0 ≤ w1 ∧ w1 < (([[97], [97, 98], [98]] : List GoStr).drop 0).length ∧
      (∀ i, i < (([[97], [97, 98], [98]] : List GoStr).drop 0).length →
        (hasPrefixB (geth (([[97], [97, 98], [98]] : List GoStr).drop 0) i)
            [97] = true ↔ w0 ≤ i ∧ i ≤ w1)) :=
  (c6_word_range_lookup [97] [[97], [97, 98], [98]] 0 (by decide) (by decide)
    (by decide)).2 0 (by decide) (by decide)

/-! ## builder.go: the full executable Build pipeline

`sort.Sort` appears four times in `Build` (byRank, byID, byFrequency, byLen);
the executable pipeline realizes each with `goSortExe`, one valid outcome of
the unstable sort (and the unique one whenever the comparator admits no
ties, as in the concrete runs below).  `sort.Strings` on the distinct
`wordmap` keys has a unique outcome.  bp128 packing is modelled by its
round-trip contract: a packed chunk is the array of packed values. -/

/-- builder.go `cposting`: one packed 2048-chunk (ids delta-packed, words and
ranks packed) plus the last doc id of the chunk. -/
structure CPost where
  ids : List Nat
  words : List Nat
  ranks : List Nat
  iboundary : Nat
deriving DecidableEq

/-- builder.go / hyb.go `pblock`. -/
structure PBlock where
  posts : List CPost
  blen : Nat
  boundary : Nat × Nat
  wboundary : GoStr × GoStr
deriving DecidableEq

/-- hyb.go `Index` (the searchable fields; `size` is cosmetic). -/
structure BIndex where
  blocks : List PBlock
  words : List GoStr
  freqword : List Nat
  charfreq : List (List Nat)
deriving DecidableEq

/-- builder.go `block` (the uncompressed partition unit). -/
structure GoBlock where
  boundary0 : Nat
  boundary1 : Nat
  index : Nat
  blen : Nat
deriving DecidableEq

/-- Sorted-duplicate removal; on a sorted list this yields the sorted
distinct elements, i.e. the contents of `words` after `sort.Strings`. -/
def dedupSorted : List GoStr → List GoStr
  | [] => []
  | [w] => [w]
  | w :: v :: rest => if w = v then dedupSorted (v :: rest) else w :: dedupSorted (v :: rest)

/-- builder.go `byFrequency.Less` on (word id, freq) pairs: freq descending. -/
def byFreqLess (a b : Nat × Nat) : Bool := decide (b.2 < a.2)

/-- builder.go `byLen.Less`: block length descending. -/
def byLenLess (a b : GoBlock) : Bool := decide (b.blen < a.blen)

/-- The word id of `w`: its position in the sorted `words` array
(`wordmap[w].id`). -/
def wordId (words : List GoStr) (w : GoStr) : Nat :=
  words.findIdx (fun v => decide (v = w))

/-- builder.go `getCharFreq`: `cfreq[c][0]` accumulates the frequencies of
words starting with byte `c`; for column `i ≥ 1`, `ctmp[a][b]` accumulates
the frequencies of words with byte `a` at `i` preceded by `b`, and
`cfreq[a][i]` is the row maximum.  The 256×256 `ctmp` array is represented
as its update function. -/
def getCharFreqExe (words : List GoStr) (freqs : List Nat) (cavg : Nat) :
    List (List Nat) :=
  let col0 : Nat → Nat :=
    (words.zip freqs).foldl
      (fun acc wf => fun c => if wf.1.headD 256 = c then acc c + wf.2 else acc c)
      (fun _ => 0)
  let colAt : Nat → Nat → Nat := fun i c =>
    let ctmp : Nat → Nat → Nat :=
      (words.zip freqs).foldl
        (fun acc wf => fun a b =>
          if i < wf.1.length ∧ wf.1.getD i 256 = a ∧ wf.1.getD (i - 1) 257 = b then
            acc a b + wf.2
          else acc a b)
        (fun _ _ => 0)
    (List.range 256).foldl (fun m b => max m (ctmp c b)) 0
  (List.range 256).map (fun c =>
    (List.range cavg).map (fun i => if i = 0 then col0 c else colAt i c))

/-- The inner depth loop of builder.go `createBlocks` for one word: thread
the prefix flag through depths `j`, flushing a block at depth `j` when its
running sum reached `blockSize` and the shared prefix broke. -/
def cbInner (blockSize i prev freqsi : Nat) (pw w : GoStr) :
    List Nat → Bool → (Nat → Nat) → (Nat → Nat) → (Nat → List GoBlock) →
    (Bool × (Nat → Nat) × (Nat → Nat) × (Nat → List GoBlock))
  | [], pfx, sum, start, rows => (pfx, sum, start, rows)
  | j :: js, pfx, sum, start, rows =>
    let minlen := min pw.length w.length
    let pfx2 : Bool :=
      if pfx = false ∨ minlen ≤ j ∨ pw.getD j 0 ≠ w.getD j 0 then false else pfx
    let flush : Bool := decide (blockSize ≤ sum j) && !pfx2
    let rows2 := if flush then
        (fun j2 => if j2 = j then rows j ++ [⟨start j, prev, 0, sum j⟩] else rows j2)
      else rows
    let start2 := if flush then (fun j2 => if j2 = j then i else start j2) else start
    let sumF := if flush then (fun j2 => if j2 = j then 0 else sum j2) else sum
    let sum3 := fun j2 => if j2 = j then sumF j + freqsi else sumF j2
    cbInner blockSize i prev freqsi pw w js pfx2 sum3 start2 rows2

/-- The outer word loop of builder.go `createBlocks`. -/
def cbOuter (blockSize cavg : Nat) (words : List GoStr) (freqs : List Nat) :
    List GoStr → Nat → Nat → (Nat → Nat) → (Nat → Nat) → (Nat → List GoBlock) →
    ((Nat → Nat) × (Nat → Nat) × (Nat → List GoBlock))
  | [], _, _, sum, start, rows => (sum, start, rows)
  | w :: rest, i, prev, sum, start, rows =>
    let pw := words.getD prev []
    let s := cbInner blockSize i prev (freqs.getD i 0) pw w (List.range cavg)
      true sum start rows
    cbOuter blockSize cavg words freqs rest (i + 1) i s.2.1 s.2.2.1 s.2.2.2

/-- builder.go `createBlocks`, first phase: one row of blocks per prefix
depth `j < cavg`, each closed by the final block covering the tail. -/
def createBlocksRows (blockSize cavg : Nat) (words : List GoStr)
    (freqs : List Nat) : List (List GoBlock) :=
  let s := cbOuter blockSize cavg words freqs words 0 0
    (fun _ => 0) (fun _ => 0) (fun _ => [])
  let lastw := words.length - 1
  (List.range cavg).map (fun j => s.2.2 j ++ [⟨s.2.1 j, lastw, 0, s.1 j⟩])

/-- builder.go `createBlocks`, selection: the first depth row with at least
`nblocks` blocks, else row 0. -/
def chooseRow (nblocks : Nat) (rows : List (List GoBlock)) : List GoBlock :=
  match rows.find? (fun r => decide (nblocks ≤ r.length)) with
  | some r => r
  | none => rows.headD []

def withIndices : List GoBlock → Nat → List GoBlock
  | [], _ => []
  | b :: rest, i => { b with index := i } :: withIndices rest (i + 1)

/-- builder.go `createBlocks` `mapFunc`: scan the byLen-sorted copy for the
block whose word range contains `w`; -1 when none ("should not reach
here"). -/
def wordBlockFn (cblk : List GoBlock) (w : Nat) : Int :=
  match cblk.find? (fun b => decide (b.boundary0 ≤ w) && decide (w ≤ b.boundary1)) with
  | some b => (b.index : Int)
  | none => -1

/-- The 2048-chunk packing of one block (builder.go lines 288-308): arrays
of length `blen` (zero-filled past the routed postings, exactly like the Go
`make`), cut into chunks, `iboundary` the last id of each chunk. -/
def packChunks (pids pwords pranks : List Nat) (blen : Nat) : List CPost :=
  let nchunks := blen / 2048 + (if blen % 2048 = 0 then 0 else 1)
  (List.range nchunks).map (fun k =>
    let start := k * 2048
    let e := min (start + 2048) blen
    ⟨(List.range (e - start)).map (fun t => pids.getD (start + t) 0),
     (List.range (e - start)).map (fun t => pwords.getD (start + t) 0),
     (List.range (e - start)).map (fun t => pranks.getD (start + t) 0),
     pids.getD (e - 1) 0⟩)

/-- Pack one block: `none` models the index panic when more postings were
routed to the block than its length field. -/
def packBlock (words : List GoStr) (frk : GoStr → Nat) (b : GoBlock)
    (routed : List BPosting) : Option PBlock :=
  if b.blen < routed.length then none
  else
    some ⟨packChunks (routed.map (fun p => u32ofInt p.id))
        (routed.map (fun p => frk p.word))
        (routed.map (fun p => u32ofInt p.rank)) b.blen,
      b.blen, (b.boundary0, b.boundary1),
      (words.getD b.boundary0 [], words.getD b.boundary1 [])⟩

/-- builder.go `Build` on the accumulated records: rank normalization, byID
sort, dedup walk, postings, vocabulary and frequencies, charfreq, block
partitioning, posting routing and chunk packing.  `none` models the panics
(empty keyword in `getCharFreq`, failed routing, oversize block). -/
def goBuild (docs : List GoDoc) : Option BIndex :=
  let sorted1 := goSortExe docLessRank docs
  let ranked := assignRanks sorted1
  let sorted2 := goSortExe docLessID ranked
  let posts := buildPostings sorted2
  if posts.length = 0 then some ⟨[], [], [], []⟩
  else
    let allwords := posts.map BPosting.word
    let words := dedupSorted (isort strLeb allwords)
    let nchars := (words.map List.length).sum
    let wordcount := posts.length
    let freqs := words.map (fun w => allwords.count w)
    let wfsorted := goSortExe byFreqLess
      ((List.range words.length).map (fun i => (i, freqs.getD i 0)))
    let freqword := wfsorted.map Prod.fst
    let frk : GoStr → Nat :=
      fun w => wfsorted.findIdx (fun e => decide (e.1 = wordId words w))
    let cavg := ((nchars / words.length) / 2) + 1
    if words.any (fun w => w.length = 0) then none
    else
      let charfreq := getCharFreqExe words freqs cavg
      let blockSize := (wordcount / 5) + 1
      let rows := createBlocksRows blockSize cavg words freqs
      let blk := chooseRow 5 rows
      let cblk := goSortExe byLenLess (withIndices blk 0)
      if posts.any (fun p => wordBlockFn cblk (wordId words p.word) < 0) then none
      else
        let routed := (List.range blk.length).map (fun k =>
          posts.filter (fun p => wordBlockFn cblk (wordId words p.word) = (k : Int)))
        let pblocks := (blk.zip routed).foldr (fun br acc =>
          match acc, packBlock words frk br.1 br.2 with
          | some l, some pb => some (pb :: l)
          | _, _ => none) (some [])
        match pblocks with
        | none => none
        | some pbs => some ⟨pbs, words, freqword, charfreq⟩

/-! ## hyb.go: the executable Search pipeline -/

/-- hyb.go `Result` (the search-relevant fields; `compbuf` is a capacity
buffer whose live prefix is always rewritten before use and is therefore not
modelled). -/
structure SResult where
  query : List GoStr
  results : List IPost
  words : List GoStr
  wrange : Option (Nat × Nat)
  completions : List GoComp
deriving DecidableEq

/-- A fresh `&Result{}`. -/
def emptyResult : SResult := ⟨[], [], [], none, []⟩

/-- The count-and-requery loop of hyb.go `continuation`: walks the previous
tokens while each is a prefix of the current token, restarting the replay
query at every token that strictly extended. -/
def contLoop (curr : List GoStr) : List GoStr → Nat → List GoStr → Nat × List GoStr
  | [], _, query => (0, query)
  | p :: ps, i, query =>
    let c := curr.getD i []
    if hasPrefixB c p = true then
      let query2 := if c ≠ p then curr.drop i else query
      let r := contLoop curr ps (i + 1) query2
      (r.1 + 1, r.2)
    else (0, query)

/-- hyb.go `continuation(prev, curr)`. -/
def continuationGo (prev curr : List GoStr) : Bool × List GoStr :=
  if curr.length < prev.length then (false, curr)
  else if prev.length = 0 then (false, curr)
  else
    let r := contLoop curr prev 0 (curr.drop prev.length)
    if r.1 = prev.length then (true, r.2) else (false, curr)

/-- hyb.go `filter`: keep postings whose word id lies in the range; a nil
range clears everything. -/
def filterGo (posts : List IPost) (wrange : Option (Nat × Nat)) : List IPost :=
  match wrange with
  | none => []
  | some r => posts.filter (fun p => decide (r.1 ≤ p.word) && decide (p.word ≤ r.2))

/-- hyb.go `calcLen`: minimum character frequency along the query bytes;
`none` models the `charfreq[0]` panic on an empty table. -/
def calcLenGo (query : GoStr) (charfreq : List (List Nat)) : Option Nat :=
  match charfreq with
  | [] => none
  | row0 :: _ =>
    some ((List.range (min query.length row0.length)).foldl
      (fun cout i =>
        let cf := (charfreq.getD (query.getD i 256) []).getD i 0
        if cf < cout then cf else cout)
      4294967295)

/-- `comps[k].hits++`. -/
def compsInc (comps : List GoComp) (k : Nat) : List GoComp :=
  comps.set k ⟨(comps.getD k default).word, (comps.getD k default).hits + 1⟩

/-- The intersection loop of hyb.go `intersect` for one unpacked chunk when
the previous results are non-empty: two-cursor id intersection, hit counting
per (id, word) change.  `none` models the `comps` index panic or (never
reached) fuel exhaustion. -/
def interChunkRes (results : List IPost) (wr : Nat × Nat) (freqword : List Nat)
    (ids words ranks : List Nat) :
    Nat → Nat → Nat → Nat → Nat → List IPost → List GoComp →
    Option (Nat × List IPost × List GoComp)
  | 0, _, _, _, _, _, _ => none
  | fuel + 1, i, j, pid, pwid, out, comps =>
    if i < results.length ∧ j < ids.length then
      let jid := ids.getD j 0
      let rid := (results.getD i default).id
      if rid < jid then
        interChunkRes results wr freqword ids words ranks fuel (i + 1) j pid pwid out comps
      else if jid < rid then
        interChunkRes results wr freqword ids words ranks fuel i (j + 1) pid pwid out comps
      else
        if hw : words.getD j 0 < freqword.length then
          let wid := freqword.getD (words.getD j 0) 0
          if wr.1 ≤ wid ∧ wid ≤ wr.2 then
            let out2 := out ++ [⟨rid, wid, ranks.getD j 0⟩]
            if pid ≠ rid ∨ pwid ≠ wid then
              if wid - wr.1 < comps.length then
                interChunkRes results wr freqword ids words ranks fuel i (j + 1) rid wid out2
                  (compsInc comps (wid - wr.1))
              else none
            else
              interChunkRes results wr freqword ids words ranks fuel i (j + 1) rid wid out2 comps
          else
            interChunkRes results wr freqword ids words ranks fuel i (j + 1) pid pwid out comps
        else none
    else some (i, out, comps)

/-- The intersection loop for one chunk when the previous results are empty:
every chunk posting with a word id in range is emitted. -/
def interChunkEmpty (wr : Nat × Nat) (freqword ids ranks : List Nat) :
    List Nat → Nat → Nat → Nat → List IPost → List GoComp →
    Option (List IPost × List GoComp)
  | [], _, _, _, out, comps => some (out, comps)
  | wf :: rest, j, pid, pwid, out, comps =>
    if hw : wf < freqword.length then
      let wid := freqword.getD wf 0
      if wr.1 ≤ wid ∧ wid ≤ wr.2 then
        let id := ids.getD j 0
        let out2 := out ++ [⟨id, wid, ranks.getD j 0⟩]
        if pid ≠ id ∨ pwid ≠ wid then
          if wid - wr.1 < comps.length then
            interChunkEmpty wr freqword ids ranks rest (j + 1) id wid out2
              (compsInc comps (wid - wr.1))
          else none
        else interChunkEmpty wr freqword ids ranks rest (j + 1) id wid out2 comps
      else interChunkEmpty wr freqword ids ranks rest (j + 1) pid pwid out comps
    else none

/-- The chunk loop of hyb.go `intersect`: the results cursor `i` persists
across chunks; a chunk is skipped while the current result id is beyond its
`iboundary`, and the block is abandoned once the results are exhausted. -/
def interChunks (results : List IPost) (wr : Nat × Nat) (freqword : List Nat) :
    List CPost → Nat → List IPost → List GoComp → Option (List IPost × List GoComp)
  | [], _, out, comps => some (out, comps)
  | c :: cs, i, out, comps =>
    if 0 < results.length then
      if results.length ≤ i then some (out, comps)
      else if c.iboundary < (results.getD i default).id then
        interChunks results wr freqword cs i out comps
      else
        match interChunkRes results wr freqword c.ids c.words c.ranks
          (results.length + c.ids.length + 1) i 0 maxU32 maxU32 out comps with
        | none => none
        | some r => interChunks results wr freqword cs r.1 r.2.1 r.2.2
    else
      match interChunkEmpty wr freqword c.ids c.ranks c.words 0 maxU32 maxU32
        out comps with
      | none => none
      | some r => interChunks results wr freqword cs i r.1 r.2

/-- hyb.go `intersect` over one packed block. -/
def intersectGo (results : List IPost) (comps : List GoComp) (b : PBlock)
    (wr : Nat × Nat) (freqword : List Nat) : Option (List IPost × List GoComp) :=
  interChunks results wr freqword b.posts 0 [] comps

/-- `l[a:b]`. -/
def listSlice {α : Type} (l : List α) (a b : Nat) : List α := (l.drop a).take (b - a)

/-- hyb.go `Index.search(query, prev)`: block selection, word range,
completion slots, per-block intersection and k-way merge.  `none` models the
panics (the `comps` index panic when the completion window wrapped to
length 0, and out-of-model capacity slicing). -/
def searchOne (idx : BIndex) (query : GoStr) (prev : SResult) : Option SResult :=
  let blocks := idx.blocks.filter (fun b =>
    ((! strLtb query b.wboundary.1) && (! strLtb b.wboundary.2 query)) ||
      hasPrefixB b.wboundary.1 query)
  match blocks with
  | [] => some { prev with results := [], wrange := none, completions := [] }
  | b0 :: _ =>
    match getWordRange query idx.words b0.boundary.1 with
    | none => some { prev with results := [], wrange := none, completions := [] }
    | some wr =>
      let rlen := u32ofInt ((wr.2 : Int) - (wr.1 : Int) + 1)
      let comps := (List.range rlen).map (fun t => (⟨wr.1 + t, 0⟩ : GoComp))
      match (if prev.results.length = 0 then calcLenGo query idx.charfreq
             else some 0) with
      | none => none
      | some _ =>
        let step := blocks.foldl (fun acc b =>
          match acc with
          | none => none
          | some pc =>
            match intersectGo prev.results pc.2 b wr idx.freqword with
            | none => none
            | some r =>
              some (if 0 < r.1.length then pc.1 ++ [r.1] else pc.1, r.2))
          (some (([] : List (List IPost)), comps))
        match step with
        | none => none
        | some pc =>
          match merge prev.results pc.1 with
          | none => none
          | some res2 =>
            some ⟨prev.query, res2, prev.words, some wr, pc.2⟩

/-- The token loop of hyb.go `Search`: a token that extends the previous one
takes the filter fast path, anything else runs a full `search`; the loop
stops as soon as the results are empty. -/
def searchLoop (idx : BIndex) : List GoStr → GoStr → SResult → Option SResult
  | [], _, prev => some prev
  | q :: rest, pquery, prev =>
    let step :=
      if 0 < pquery.length ∧ hasPrefixB q pquery = true then
        match prev.wrange with
        | none => none
        | some pwr =>
          let wrange := getWordRange q idx.words pwr.1
          let se : Nat × Nat :=
            match wrange with
            | none => (0, 0)
            | some wr =>
              let s := u32ofInt ((wr.1 : Int) - (pwr.1 : Int))
              (s, u32ofInt ((s : Int) + ((wr.2 : Int) - (wr.1 : Int) + 1)))
          if se.1 ≤ se.2 ∧ se.2 ≤ prev.completions.length then
            some ⟨prev.query, filterGo prev.results wrange, prev.words, wrange,
              listSlice prev.completions se.1 se.2⟩
          else none
      else searchOne idx q prev
    match step with
    | none => none
    | some r =>
      if r.results.length = 0 then some r
      else searchLoop idx rest q r

/-- hyb.go `Index.Search(query, prev)`. -/
def searchGo (idx : BIndex) (query : List GoStr) (prev : SResult) :
    Option SResult :=
  let cq := continuationGo prev.query query
  if cq.1 = true ∧ prev.results.length = 0 then some prev
  else
    let prev1 := if cq.1 = true then prev
      else ⟨prev.query, [], idx.words, none, []⟩
    let pquery := if cq.1 = true then prev.query.getD (prev.query.length - 1) []
      else []
    match searchLoop idx cq.2 pquery prev1 with
    | none => none
    | some r => some { r with query := query }

set_option maxRecDepth 100000

def c2docs : List GoDoc := opsDocs 0 [BOp.add 1 [[97, 121], [98, 120]] 0]

/-- C2: continuation equivalence FAILS (code bug).  Index one document (id 1)
with keywords "ay" and "bx".  `Search(["a","b"])` finds it.  The incremental
`Search(["ax","bx"])` on that Result still returns document 1, but a fresh
`Search(["ax","bx"])` returns nothing: `continuation` restarts the replay
query at the LAST token that strictly extended (`query = curr[i:]` is
overwritten at each difference), so the extended first token "ax" is never
re-checked and the stale "a" matches survive. -/
theorem c2_continuation_replay_bug :
    ((goBuild c2docs).bind (fun idx =>
      (searchGo idx [[97], [98]] emptyResult).bind (fun r1 =>
        (searchGo idx [[97, 120], [98, 120]] r1).map
          (fun r2 => r2.results.map IPost.id)))) = some [1] ∧
    ((goBuild c2docs).bind (fun idx =>
      (searchGo idx [[97, 120], [98, 120]] emptyResult).map
        (fun rf => rf.results.map IPost.id))) = some [] ∧
    continuationGo [[97], [98]] [[97, 120], [98, 120]] = (true, [[98, 120]]) := by
  refine ⟨by decide, by decide, by decide⟩

def c3docs : List GoDoc := opsDocs 0 [BOp.add 1 [[97, 244, 143, 191, 191]] 0]

/-- C3: the query path CAN fail (code bug).  Index one document whose single
keyword is "a" followed by U+10FFFF.  `Search(["a"])` panics: `getWordRange`
returns the wrapped range (0, 4294967295), `rlen = wrange[1]-wrange[0]+1`
wraps to 0 in `uint32`, the completions window is empty, and `intersect`
indexes `comps[wid-wrange[0]]` out of range.  The graceful parts of the
claim do hold on this index: an out-of-vocabulary query ("b") and a search
against the empty index return empty results and completions without
error. -/
theorem c3_query_path_panic :
    (goBuild c3docs).isSome = true ∧
    ((goBuild c3docs).bind (fun idx => searchGo idx [[97]] emptyResult)) = none ∧
    ((goBuild c3docs).bind (fun idx =>
      (searchGo idx [[98]] emptyResult).map
        (fun r => (r.results, r.completions)))) = some ([], []) ∧
    ((goBuild (opsDocs 0 [])).bind (fun idx =>
      (searchGo idx [[97]] emptyResult).map
        (fun r => (r.results, r.completions)))) = some ([], []) := by
  refine ⟨by decide, by decide, by decide, by decide⟩

theorem getCharFreqExe_dims (words : List GoStr) (freqs : List Nat) (cavg : Nat) :
    (getCharFreqExe words freqs cavg).length = 256 ∧
    ∀ row ∈ getCharFreqExe words freqs cavg, row.length = cavg := by
  unfold getCharFreqExe
  constructor
  · simp
  · intro row hrow
    simp only [List.mem_map] at hrow
    obtain ⟨c, _, hc⟩ := hrow
    rw [← hc]
    simp

def c7docs : List GoDoc := opsDocs 0 [BOp.add 0 [[97, 98], [99, 100]] 0]

/-- Counterexample for C7: keywords "ab" and "cd" give nchars = 4 over 2
distinct words; the spec formula (4/2)+1 = 3, but the built charfreq table
has ((4/2)/2)+1 = 2 columns (builder.go line 255: an extra halving). -/
theorem c7_counterexample :
    (goBuild c7docs).map (fun idx =>
      ((idx.words.map List.length).sum, idx.words.length,
        idx.charfreq.length, idx.charfreq.map List.length))
      = some (4, 2, 256, List.replicate 256 2) ∧
    ((4 / 2) + 1 : Nat) = 3 ∧ (((4 / 2) / 2) + 1 : Nat) = 2 := by
  refine ⟨by decide, by decide, by decide⟩

/-- C7: avgChars dimension, corrected.  For every built non-empty index the
charFreq table is 256 rows of `((nchars / |words|) / 2) + 1` columns — half
the average word length plus one, not the claimed average plus one — and the
block partitioner's depth-row structure likewise has exactly that `cavg`
depth rows (`goBuild` passes the same `cavg` to both). -/
theorem c7_avgchars_dimension :
    (∀ (docs : List GoDoc) (idx : BIndex), goBuild docs = some idx →
      idx.words ≠ [] →
      idx.charfreq.length = 256 ∧
      ∀ row ∈ idx.charfreq, row.length =
        (((idx.words.map List.length).sum / idx.words.length) / 2) + 1) ∧
    (∀ (blockSize cavg : Nat) (words : List GoStr) (freqs : List Nat),
      (createBlocksRows blockSize cavg words freqs).length = cavg) := by
  constructor
  · intro docs idx h hne
    unfold goBuild at h
    dsimp only at h
    split at h
    · rename_i hempty
      have hidx : idx = ⟨[], [], [], []⟩ := (Option.some.injEq _ _).mp h.symm
      rw [hidx] at hne
      exact absurd rfl hne
    · split at h
      · exact Option.noConfusion h
      · split at h
        · exact Option.noConfusion h
        · split at h
          · exact Option.noConfusion h
          · rename_i pbs hpbs
            have hidx : idx = ⟨pbs, _, _, _⟩ := (Option.some.injEq _ _).mp h.symm
            rw [hidx]
            dsimp only
            exact ⟨(getCharFreqExe_dims _ _ _).1, (getCharFreqExe_dims _ _ _).2⟩
  · intro blockSize cavg words freqs
    unfold createBlocksRows
    simp

/-- Witness for C7: the "ab"/"cd" index has 256 charfreq rows of width
((4/2)/2)+1 = 2. -/
theorem c7_avgchars_dimension_witness :
    ∃ idx, goBuild c7docs = some idx ∧ idx.charfreq.length = 256 ∧
      (∀ row ∈ idx.charfreq, row.length =
        (((idx.words.map List.length).sum / idx.words.length) / 2) + 1) ∧
      (createBlocksRows 1 2 [[97, 98], [99, 100]] [1, 1]).length = 2 := by
  obtain ⟨idx, hidx⟩ : ∃ idx, goBuild c7docs = some idx := ⟨_, rfl⟩
  have hw : (goBuild c7docs).map BIndex.words = some [[97, 98], [99, 100]] := by
    decide
  rw [hidx] at hw
  have hw2 : idx.words = [[97, 98], [99, 100]] := by
    simpa using hw
  have h := c7_avgchars_dimension.1 c7docs idx hidx (by rw [hw2]; decide)
  exact ⟨idx, hidx, h.1, h.2, c7_avgchars_dimension.2 1 2 [[97, 98], [99, 100]] [1, 1]⟩

end Hyb
